import Mathlib

/-!
The make-cfg driver: symbol table, loader policy, driver fixpoint and emission plan

A shallow embedding of `make-cfg.cc`.  Addresses (`addr_t`, `Elf32_Addr`) are
natural numbers; 32-bit wrap-around is written out with `% 2 ^ 32` where the
source computes a sum.  Global variables of the source become explicit state.
-/

namespace MakeCfg

/-! ## Symbol table (`read_symtab`, `funcname`) -/

/-- One `Elf32_Sym` as `read_symtab` looks at it: the `st_value` field and the
result of `elf_strptr` for its `st_name` (`none` is the NULL pointer). -/
structure Sym where
  st_value : Nat
  name : Option String
  deriving DecidableEq, Repr

/-- The two global maps `addr2name` and `name2addr`; only lookup and
assignment through `operator[]` are used by the source. -/
structure SymMaps where
  addr2name : Nat → Option String
  name2addr : String → Option Nat

/-- Both maps empty, as they are when the program starts. -/
def SymMaps.empty : SymMaps := ⟨fun _ => none, fun _ => none⟩

/-- Body of the `for` loop of `read_symtab` for one entry: the guard
`name && *name`, then the two assignments. -/
def symStep (m : SymMaps) (s : Sym) : SymMaps :=
  match s.name with
  | none => m
  | some n =>
    if n = "" then m
    else
      { addr2name := fun a => if a = s.st_value then some n else m.addr2name a
        name2addr := fun k => if k = n then some s.st_value else m.name2addr k }

/-- The loop of `read_symtab` over the entries of the table, in table order. -/
def read_symtab (m : SymMaps) (syms : List Sym) : SymMaps :=
  syms.foldl symStep m

/-- `funcname`: the recorded name of the address, or "anon". -/
def funcname (m : SymMaps) (addr : Nat) : String :=
  match m.addr2name addr with
  | some n => n
  | none => "anon"

/-- An entry carries a usable name: `name && *name`. -/
def Sym.named (s : Sym) : Bool :=
  match s.name with
  | none => false
  | some n => n ≠ ""

/-- Specification side: the name of the last entry, in table order, that sits
at address `a` and has a non-empty name. -/
def lastNameAt (syms : List Sym) (a : Nat) : Option String :=
  (syms.reverse.find? (fun s => s.named && decide (s.st_value = a))).bind Sym.name

/-- Specification side: the address of the last entry, in table order, whose
name is `k`. -/
def lastAddrOf (syms : List Sym) (k : String) : Option Nat :=
  (syms.reverse.find? (fun s => decide (s.name = some k))).map Sym.st_value


/-! ## ELF sections and the two loader loops of `main` -/

/-- `SHT_PROGBITS` of `elf.h`. -/
def SHT_PROGBITS : Nat := 1

/-- `SHT_SYMTAB` of `elf.h`. -/
def SHT_SYMTAB : Nat := 2

/-- `SHF_WRITE` of `elf.h`. -/
def SHF_WRITE : Nat := 1

/-- `SHF_ALLOC` of `elf.h`. -/
def SHF_ALLOC : Nat := 2

/-- `SHF_EXECINSTR` of `elf.h`. -/
def SHF_EXECINSTR : Nat := 4

/-- The fields of an `Elf32_Shdr` that `main` reads; all are 32-bit words. -/
structure Shdr where
  sh_type : Nat
  sh_flags : Nat
  sh_addr : Nat
  sh_offset : Nat
  sh_size : Nat
  sh_entsize : Nat
  deriving DecidableEq, Repr

/-- A section as libelf presents it: its header, its name (`elf_strptr` on
`e_shstrndx`) and, for a symbol table, the entries `syms[i]` that
`read_symtab` finds in its data. -/
structure Section where
  hdr : Shdr
  name : String
  syms : List Sym
  deriving DecidableEq, Repr

/-- The opened program: entry point, sections in `elf_nextscn` order, and the
bytes of the file that `lseek` and `read` see. -/
structure ElfImage where
  e_entry : Nat
  sections : List Section
  file : List Nat
  deriving DecidableEq, Repr

/-- The `data` pointer handed to `addSection`: NULL, the zero-filled buffer of
`calloc`, or that buffer overwritten by `read`. -/
inductive SectionData where
  | null
  | zeros (size : Nat)
  | fileBytes (bytes : List Nat)
  deriving DecidableEq, Repr

/-- The candidate test of lines 239-240; the sum `sh_addr + sh_size` is taken
in 32-bit unsigned arithmetic. -/
def coversEntry (start : Nat) (sh : Shdr) : Bool :=
  sh.sh_type == SHT_PROGBITS && decide (sh.sh_addr ≤ start)
    && decide (start < (sh.sh_addr + sh.sh_size) % 2 ^ 32)

/-- The guard of line 259: a buffer is allocated for the section. -/
def allocatesBuffer (sh : Shdr) : Bool :=
  (sh.sh_flags &&& SHF_ALLOC != 0) || sh.sh_type == SHT_SYMTAB

/-- Lines 256-277 for one section: the value of `data` when `addSection` is
reached, or `none` when `read` delivers fewer than `sh_size` bytes and the
assertion of line 270 fails.  `calloc` is taken to succeed. -/
def sectionData (file : List Nat) (sh : Shdr) : Option SectionData :=
  if allocatesBuffer sh then
    if sh.sh_type == SHT_PROGBITS || sh.sh_type == SHT_SYMTAB then
      let bytes := (file.drop sh.sh_offset).take sh.sh_size
      if bytes.length = sh.sh_size then some (SectionData.fileBytes bytes) else none
    else some (SectionData.zeros sh.sh_size)
  else some SectionData.null

/-- Lines 278-283: the flags word handed to `addSection`. -/
def sectionFlags (sh : Shdr) : Nat :=
  1 ||| (if sh.sh_flags &&& SHF_WRITE != 0 then 2 else 0)
    ||| (if sh.sh_flags &&& SHF_EXECINSTR != 0 then 4 else 0)

/-! ## Program model (`prog.h`, `cfg.h`): what `build_cfg` reads and writes -/

/-- An instruction, as far as the driver looks at it: its address and its
call targets.  A call target is a `Function *` in the source; the registry
owns every Function and keys it by entry address, so the pointer is
represented by that address. -/
structure Instruction where
  address : Nat
  call_targets : List Nat
  deriving DecidableEq, Repr

/-- A basic block: its instructions, in order (`inst_begin` .. `inst_end`). -/
structure BasicBlock where
  insts : List Instruction
  deriving DecidableEq, Repr

/-- A function object: entry address, name, module, pending flag and the
basic blocks of its CFG (`bb_begin` .. `bb_end`). -/
structure Function where
  address : Nat
  name : String
  module : String
  pending : Bool
  cfg : List BasicBlock
  deriving DecidableEq, Repr

/-- The global `functions` map, `std::map<addr_t, Function *>`, as the list of
its Function objects; the key of an entry is the entry address of the
Function. -/
abbrev functions_map_t := List Function

/-- The lookup `functions.find(addr)`. -/
def findFunction (fs : functions_map_t) (addr : Nat) : Option Function :=
  fs.find? (fun f => f.address == addr)

/-- Apply a setter to the Function object registered at `addr`. -/
def updateFunction (fs : functions_map_t) (addr : Nat) (g : Function → Function) :
    functions_map_t :=
  fs.map (fun f => if f.address = addr then g f else f)

/-- The assignment `functions[addr] = f`: overwrite the entry with that key,
or insert a new entry at its place in key order. -/
def assignFunction : functions_map_t → Function → functions_map_t
  | [], f => [f]
  | g :: rest, f =>
    if g.address = f.address then f :: rest
    else if f.address < g.address then f :: g :: rest
    else g :: assignFunction rest f

/-- The function registered at `addr` exists and is not pending. -/
def isBuilt (fs : functions_map_t) (addr : Nat) : Bool :=
  match findFunction fs addr with
  | some f => !f.pending
  | none => false

/-- The function registered at `addr` exists and is pending. -/
def isPendingAt (fs : functions_map_t) (addr : Nat) : Bool :=
  match findFunction fs addr with
  | some f => f.pending
  | none => false

/-- The call targets of one function, in the order of the three inner loops
of the scan (blocks, instructions, call targets). -/
def Function.callTargets (f : Function) : List Nat :=
  f.cfg.flatMap (fun bb => bb.insts.flatMap (fun i => i.call_targets))

/-- Every (caller, callee) pair the scan of lines 142-165 visits, in order. -/
def callPairs (fs : functions_map_t) : List (Nat × Nat) :=
  fs.flatMap (fun f => f.callTargets.map (fun t => (f.address, t)))

/-- State of the driver: the `functions` registry, the edges handed to
`CallGraph::addCall` so far (one entry per invocation, in order), and a ghost
trace of the receivers of the `augmentCfg` invocations. -/
structure DriverState where
  functions : functions_map_t
  callgraph : List (Nat × Nat)
  augmented : List Nat
  deriving DecidableEq, Repr

/-- What the driver needs from its surroundings: the symbol maps read by
`funcname` and the global `prog_name`. -/
structure DriverEnv where
  syms : SymMaps
  prog_name : String

/-- How a run of `build_cfg` ends: it returns, an `assert` fails, or the
model ran out of fuel for the `while` loop. -/
inductive Result where
  | done (st : DriverState)
  | assertFailed
  | outOfFuel
  deriving DecidableEq, Repr

/-- `std::set::insert` on the worklist. -/
def worklistInsert (wl : List Nat) (a : Nat) : List Nat :=
  if a ∈ wl then wl else wl ++ [a]

/-- Body of the first `for` loop of a pass (lines 120-134) for the worklist
element registered at `a`.  `augment a fs` is the effect of
`getCfg()->augmentCfg(a, functions)` on the registry and the objects it
owns; `cfg.h` is not part of the sources, so it is a parameter.  `none` is
the failure of the assertion of line 124.  The second `isPending()` reads the
object again after `augmentCfg`; should the registry have lost it, the object
as it stood before the call is the one read and re-registered by line 133. -/
def processFunction (env : DriverEnv) (augment : Nat → functions_map_t → functions_map_t)
    (st : DriverState) (a : Nat) : Option DriverState :=
  match findFunction st.functions a with
  | none => none
  | some f =>
    let named : Function → Function := fun g =>
      { g with name := funcname env.syms a, module := env.prog_name }
    let fs1 := if f.pending then updateFunction st.functions a named else st.functions
    let f1 := if f.pending then named f else f
    let fs2 := augment a fs1
    let f2 := (findFunction fs2 a).getD f1
    let fs3 := if f2.pending then assignFunction fs2 { f2 with pending := false } else fs2
    some { st with functions := fs3, augmented := st.augmented ++ [a] }

/-- Innermost body of the scan (lines 156-161) for one call target: the
assertion, `addCall`, and the insertion of a pending target in the worklist. -/
def scanCall (fs : functions_map_t) (acc : Option (List (Nat × Nat) × List Nat))
    (p : Nat × Nat) : Option (List (Nat × Nat) × List Nat) :=
  match acc with
  | none => none
  | some (cg, wl) =>
    match findFunction fs p.2 with
    | none => none
    | some t => some (cg ++ [p], if t.pending then worklistInsert wl p.2 else wl)

/-- The scan of lines 137-165: starting from the cleared worklist, visit every
call target of every registered function. -/
def scanFunctions (fs : functions_map_t) (cg : List (Nat × Nat)) :
    Option (List (Nat × Nat) × List Nat) :=
  (callPairs fs).foldl (scanCall fs) (some (cg, []))

/-- The first `for` loop of a pass over the worklist, in the order given. -/
def processWorklist (env : DriverEnv) (augment : Nat → functions_map_t → functions_map_t) :
    DriverState → List Nat → Option DriverState
  | st, [] => some st
  | st, a :: rest =>
    match processFunction env augment st a with
    | none => none
    | some st1 => processWorklist env augment st1 rest

/-- The `while` loop of `build_cfg` (lines 116-166).  `order` is the iteration
order of the `std::set<Function *>` worklist, which is the order of the
pointer values; one unit of fuel is spent per pass. -/
def build_cfg_loop (env : DriverEnv) (order : List Nat → List Nat)
    (augment : Nat → functions_map_t → functions_map_t) :
    Nat → DriverState → List Nat → Result
  | fuel, st, wl =>
    if wl = [] then Result.done st
    else
      match fuel with
      | 0 => Result.outOfFuel
      | fuel + 1 =>
        match processWorklist env augment st (order wl) with
        | none => Result.assertFailed
        | some st1 =>
          match scanFunctions st1.functions st1.callgraph with
          | none => Result.assertFailed
          | some (cg, wl1) =>
            build_cfg_loop env order augment fuel { st1 with callgraph := cg } wl1

/-- `build_cfg`: the worklist starts with every registered function. -/
def build_cfg (env : DriverEnv) (order : List Nat → List Nat)
    (augment : Nat → functions_map_t → functions_map_t) (fuel : Nat)
    (st : DriverState) : Result :=
  build_cfg_loop env order augment fuel st
    ((st.functions.map Function.address).foldl worklistInsert [])

/-- Number of edges caller -> callee in the call graph. -/
def edgeCount (cg : List (Nat × Nat)) (caller callee : Nat) : Nat :=
  cg.count (caller, callee)

/-- Number of call-target entries of the functions registered at `caller`
that point to `callee`. -/
def callCount (fs : functions_map_t) (caller callee : Nat) : Nat :=
  (callPairs fs).count (caller, callee)

/-- The driver state `main` hands to `build_cfg` (lines 297-298): the registry
holds the entry function alone, the call graph is empty.  Modelled from the
spec: the constructor `Function(entry_name, start, 0, prog_name)` of
`prog.h`, which is not part of the sources, leaves the Function pending and
its CFG empty. -/
def seedState (entry : Nat) (entry_name module : String) : DriverState :=
  { functions := [{ address := entry, name := entry_name, module := module,
                    pending := true, cfg := [] }],
    callgraph := [], augmented := [] }

/-! ## Assumptions on `augmentCfg` and on the worklist order -/

/-- `augmentCfg` never turns a registered, not-pending function back into a
pending one (and never unregisters it). -/
def KeepsBuilt (augment : Nat → functions_map_t → functions_map_t) : Prop :=
  ∀ a fs x, isBuilt fs x = true → isBuilt (augment a fs) x = true

/-- `augmentCfg` leaves the pending flags alone: it neither sets nor clears
the flag of a registered function, and every function it creates is pending. -/
def LeavesFlags (augment : Nat → functions_map_t → functions_map_t) : Prop :=
  ∀ a fs x, isBuilt (augment a fs) x = isBuilt fs x

/-- `augmentCfg` registers entry addresses below `N` only. -/
def StaysBelow (N : Nat) (augment : Nat → functions_map_t → functions_map_t) : Prop :=
  ∀ a fs, (∀ f ∈ fs, f.address < N) → ∀ f ∈ augment a fs, f.address < N

/-- Every function that is pending after `augmentCfg` ran on the function at
`a` was pending before, or is a call target of an instruction of the function
at `a`: what `augmentCfg` creates, it registers and attaches. -/
def AttachesDiscovered (augment : Nat → functions_map_t → functions_map_t) : Prop :=
  ∀ a fs x, isPendingAt (augment a fs) x = true →
    isPendingAt fs x = true ∨ (a, x) ∈ callPairs (augment a fs)

/-- `augmentCfg` only extends CFGs: a call target attached to an instruction
of a registered function stays attached. -/
def KeepsCallTargets (augment : Nat → functions_map_t → functions_map_t) : Prop :=
  ∀ a fs p, p ∈ callPairs fs → p ∈ callPairs (augment a fs)

/-- `augmentCfg` works on CFGs and on the registry: it leaves the name and the
module of every function that stays registered as they are. -/
def KeepsNames (augment : Nat → functions_map_t → functions_map_t) : Prop :=
  ∀ a fs x f g, findFunction fs x = some f → findFunction (augment a fs) x = some g →
    g.name = f.name ∧ g.module = f.module

/-- Every registered function that is not pending carries the name `funcname`
gives its address and the module `prog_name`. -/
def BuiltAreNamed (env : DriverEnv) (fs : functions_map_t) : Prop :=
  ∀ x f, findFunction fs x = some f → f.pending = false →
    f.name = funcname env.syms x ∧ f.module = env.prog_name

/-- The iteration order of the worklist set visits each of its elements once. -/
def WalksWorklist (order : List Nat → List Nat) : Prop :=
  ∀ wl, (order wl).Perm wl

/-- Number of entry addresses below `N` whose function is registered and not
pending: the quantity that grows with every pass of the driver. -/
def builtCount (N : Nat) (fs : functions_map_t) : Nat :=
  ((Finset.range N).filter (fun x => isBuilt fs x = true)).card

/-! ## A concrete decoder behaviour for running the driver -/

/-- A freshly discovered function: pending, no name, empty CFG. -/
def discovered (addr : Nat) : Function :=
  { address := addr, name := "", module := "", pending := true, cfg := [] }

/-- Register `addr` as a pending function unless the registry already has it. -/
def discover (fs : functions_map_t) (addr : Nat) : functions_map_t :=
  if (findFunction fs addr).isSome then fs else assignFunction fs (discovered addr)

/-- The CFG a table of direct calls gives the function at `a`: one block, with
one call instruction per entry of `calls a`; a CFG that already has blocks
is left as it is. -/
def tableBlock (calls : Nat → List Nat) (a : Nat) (f : Function) : Function :=
  if f.cfg = [] then
    { f with cfg := [{ insts := (calls a).map (fun t => { address := a, call_targets := [t] }) }] }
  else f

/-- An `augmentCfg` behaviour given by a table of direct calls: the CFG of the
function at `a` is built from the table, then every call target of that CFG
that is a 32-bit address and not yet registered is created pending. -/
def tableAugment (calls : Nat → List Nat) (a : Nat) (fs : functions_map_t) :
    functions_map_t :=
  let fs1 := updateFunction fs a (tableBlock calls a)
  match findFunction fs1 a with
  | none => fs1
  | some f => (f.callTargets.filter (fun t => t < 2 ^ 32)).foldl discover fs1

/-- Call table of the two-function program: main at 4096 calls helper at 8192
once; helper calls nothing. -/
def mainHelperCalls (a : Nat) : List Nat :=
  if a = 4096 then [8192] else []

/-- Call table of the mutually recursive pair: f at 4096 calls g at 8192 and
g calls f. -/
def mutualCalls (a : Nat) : List Nat :=
  if a = 4096 then [8192] else if a = 8192 then [4096] else []

/-- An environment without symbols, for a program called "a.out". -/
def exampleEnv : DriverEnv := { syms := SymMaps.empty, prog_name := "a.out" }

/-- Final driver state of the main/helper program. -/
def mainHelperFinal : DriverState :=
  { functions :=
      [{ address := 4096, name := "anon", module := "a.out", pending := false,
         cfg := [{ insts := [{ address := 4096, call_targets := [8192] }] }] },
       { address := 8192, name := "anon", module := "a.out", pending := false,
         cfg := [{ insts := [] }] }],
    callgraph := [(4096, 8192), (4096, 8192)],
    augmented := [4096, 8192] }

/-- Final driver state of the mutually recursive pair. -/
def mutualFinal : DriverState :=
  { functions :=
      [{ address := 4096, name := "anon", module := "a.out", pending := false,
         cfg := [{ insts := [{ address := 4096, call_targets := [8192] }] }] },
       { address := 8192, name := "anon", module := "a.out", pending := false,
         cfg := [{ insts := [{ address := 8192, call_targets := [4096] }] }] }],
    callgraph := [(4096, 8192), (4096, 8192), (8192, 4096)],
    augmented := [4096, 8192] }

/-- Call table of a single self-recursive function at 4096. -/
def selfCalls (a : Nat) : List Nat :=
  if a = 4096 then [4096] else []

/-- Final driver state of the self-recursive function. -/
def selfFinal : DriverState :=
  { functions :=
      [{ address := 4096, name := "anon", module := "a.out", pending := false,
         cfg := [{ insts := [{ address := 4096, call_targets := [4096] }] }] }],
    callgraph := [(4096, 4096)],
    augmented := [4096] }

/-! ## `main`: command line, loader, driver, emission -/

/-- Results of the four `argv_getString` calls of lines 185-207 (`none` is
NULL).  `argv_readparam.h` is not part of the sources; the values are inputs. -/
structure Options where
  dot : Option String
  vcg : Option String
  json : Option String
  cfg_out : Option String
  deriving DecidableEq, Repr

/-- A file `main` writes.  The per-function files are named after the entry
address of the function (`%.8x`) inside the directory of the option. -/
inductive OutFile where
  | cfgJson (dir : String)
  | functionDot (dir : String) (addr : Nat)
  | functionVcg (dir : String) (addr : Nat)
  | callgraphDot (dir : String)
  | callgraphVcg (dir : String)
  | serialized (path : String)
  deriving DecidableEq, Repr

/-- What `main` does that can be seen from outside, in program order. -/
inductive Event where
  | usage
  | openFile (path : String)
  | openFailed (path : String)
  | candidate (sh_addr : Nat) (name : String)
  | addModule (addr size : Nat) (name : String)
  | addSection (addr : Nat) (data : SectionData) (size flags : Nat) (name : String)
  | newFunction (name : String) (addr : Nat)
  | write (file : OutFile)
  deriving DecidableEq, Repr

/-- How `main` ends: `exit` or `return` with a code, an abort (failed
`assert`, or the division by a zero `sh_entsize`), or the model of the
driver loop ran out of fuel. -/
inductive Status where
  | exit (code : Nat)
  | abort
  | outOfFuel
  deriving DecidableEq, Repr

/-- A run of `main`: its events and how it ended. -/
structure Outcome where
  events : List Event
  status : Status
  deriving DecidableEq, Repr

/-- The test of line 209: `argc < 2 || argv[argc - 1][0] == '-'`. -/
def missingProgram (argv : List String) : Bool :=
  decide (argv.length < 2) || (argv.getLast?.bind (fun s => s.data.head?)) == some '-'

/-- Lines 315-394: the files `main` opens with `fopen` for the options and the
entry addresses of the registered functions, in the order it opens them. -/
def emitGraphs (opts : Options) (fs : List Nat) : List OutFile :=
  if opts.dot.isSome || opts.vcg.isSome || opts.json.isSome then
    (match opts.json with
      | some j => [OutFile.cfgJson j]
      | none =>
        fs.flatMap (fun a =>
          (match opts.dot with
            | some d => [OutFile.functionDot d a]
            | none => [])
          ++ (match opts.vcg with
            | some v => [OutFile.functionVcg v a]
            | none => [])))
    ++ (match opts.dot with
      | some d => [OutFile.callgraphDot d]
      | none => [])
    ++ (match opts.vcg with
      | some v => [OutFile.callgraphVcg v]
      | none => [])
  else []

/-- Lines 396-397: the call of `serialize` when `--cfg-out` is given. -/
def emitSerialized (opts : Options) : List OutFile :=
  match opts.cfg_out with
  | some p => [OutFile.serialized p]
  | none => []

/-- The whole emission plan of lines 315-397, in program order. -/
def emit (opts : Options) (fs : List Nat) : List OutFile :=
  emitGraphs opts fs ++ emitSerialized opts

/-- The `fopen`, `assert(f)`, `fprintf`, `fclose` sequences of lines 333-392,
one per file of the list: `canOpen` tells whether `fopen` succeeds; the
files written are returned together with whether every `assert(f)` held.
The first failing `assert(f)` ends the run. -/
def writeFiles (canOpen : OutFile → Bool) : List OutFile → List OutFile × Bool
  | [] => ([], true)
  | f :: rest =>
    if canOpen f then
      ((f :: (writeFiles canOpen rest).1), (writeFiles canOpen rest).2)
    else ([], false)

/-- Variables of the first section loop (lines 234-248). -/
structure ScanState where
  match_count : Nat
  code_scn : Option Nat
  min_addr : Nat
  max_addr : Nat
  events : List Event
  deriving DecidableEq, Repr

/-- Body of the first section loop for the section with index `idx`. -/
def scanStep (start : Nat) (st : ScanState) (idx : Nat) (s : Section) : ScanState :=
  { match_count := if coversEntry start s.hdr then st.match_count + 1 else st.match_count
    code_scn := if coversEntry start s.hdr then some idx else st.code_scn
    min_addr := min st.min_addr s.hdr.sh_addr
    max_addr := max st.max_addr ((s.hdr.sh_addr + s.hdr.sh_size) % 2 ^ 32)
    events :=
      if coversEntry start s.hdr then st.events ++ [Event.candidate s.hdr.sh_addr s.name]
      else st.events }

/-- The first section loop, from the section with index `idx` on. -/
def scanFrom (start : Nat) : Nat → ScanState → List Section → ScanState
  | _, st, [] => st
  | idx, st, s :: rest => scanFrom start (idx + 1) (scanStep start st idx s) rest

/-- The first section loop with its initial values (`min_addr = ~0`). -/
def scanSections (start : Nat) (secs : List Section) : ScanState :=
  scanFrom start 0
    { match_count := 0, code_scn := none, min_addr := 2 ^ 32 - 1, max_addr := 0, events := [] }
    secs

/-- Variables of the second section loop (lines 253-288): the global `code`
pointer (`none` is 0), the symbol maps, and the events so far. -/
structure LoadState where
  code : Option (List Nat)
  syms : SymMaps
  events : List Event

/-- Result of the second section loop: it ran to its end, or it aborted after
the events given. -/
inductive LoadResult where
  | ok (st : LoadState)
  | aborted (events : List Event)

/-- Body of the second section loop for the section with index `idx`. -/
def loadStep (file : List Nat) (code_scn : Option Nat) (st : LoadState) (idx : Nat)
    (s : Section) : LoadResult :=
  match sectionData file s.hdr with
  | none => LoadResult.aborted st.events
  | some data =>
    let code :=
      match data with
      | SectionData.fileBytes bytes => if code_scn = some idx then some bytes else st.code
      | _ => st.code
    let events := st.events
      ++ [Event.addSection s.hdr.sh_addr data s.hdr.sh_size (sectionFlags s.hdr) s.name]
    if s.hdr.sh_type = SHT_SYMTAB then
      if s.hdr.sh_entsize = 16 then
        LoadResult.ok
          { code := code
            syms := read_symtab st.syms (s.syms.take (s.hdr.sh_size / s.hdr.sh_entsize))
            events := events }
      else LoadResult.aborted events
    else LoadResult.ok { code := code, syms := st.syms, events := events }

/-- The second section loop, from the section with index `idx` on. -/
def loadFrom (file : List Nat) (code_scn : Option Nat) :
    Nat → LoadState → List Section → LoadResult
  | _, st, [] => LoadResult.ok st
  | idx, st, s :: rest =>
    match loadStep file code_scn st idx s with
    | LoadResult.aborted ev => LoadResult.aborted ev
    | LoadResult.ok st1 => loadFrom file code_scn (idx + 1) st1 rest

/-- Where lines 209-313 of `main` leave the run: it has ended (usage, failed
`open`, abort), or the driver has returned and emission is next, with the
events so far and the final driver state. -/
inductive Stage where
  | ended (out : Outcome)
  | built (events : List Event) (st : DriverState)
  deriving DecidableEq, Repr

/-- Lines 209-313 of `main`: command line, `open`, the two section loops, the
entry function and `build_cfg`.  `fsys` is what `open` and libelf make of a
path (`none`: `open` fails); `order`, `augment` and `fuel` are handed to
`build_cfg`.  The `sanityCheck` calls of lines 309-313 only report. -/
def mainBuild (argv : List String) (fsys : String → Option ElfImage)
    (order : List Nat → List Nat) (augment : Nat → functions_map_t → functions_map_t)
    (fuel : Nat) : Stage :=
  if missingProgram argv then Stage.ended { events := [Event.usage], status := Status.exit 1 }
  else
    let prog_name := argv.getLast?.getD ""
    match fsys prog_name with
    | none =>
      Stage.ended
        { events := [Event.openFile prog_name, Event.openFailed prog_name],
          status := Status.exit 1 }
    | some elf =>
      let scan := scanSections elf.e_entry elf.sections
      let ev1 := Event.openFile prog_name :: scan.events
      if scan.match_count ≠ 1 then Stage.ended { events := ev1, status := Status.abort }
      else
        let ev2 := ev1
          ++ [Event.addModule scan.min_addr ((scan.max_addr + 2 ^ 32 - scan.min_addr) % 2 ^ 32)
                prog_name]
        match loadFrom elf.file scan.code_scn 0
            { code := none, syms := SymMaps.empty, events := ev2 } elf.sections with
        | LoadResult.aborted ev => Stage.ended { events := ev, status := Status.abort }
        | LoadResult.ok ld =>
          match ld.code with
          | none => Stage.ended { events := ld.events, status := Status.abort }
          | some _ =>
            let entry_name := (ld.syms.addr2name elf.e_entry).getD "_start (fake)"
            let ev3 := ld.events ++ [Event.newFunction entry_name elf.e_entry]
            match build_cfg { syms := ld.syms, prog_name := prog_name } order augment fuel
                (seedState elf.e_entry entry_name prog_name) with
            | Result.outOfFuel => Stage.ended { events := ev3, status := Status.outOfFuel }
            | Result.assertFailed => Stage.ended { events := ev3, status := Status.abort }
            | Result.done st => Stage.built ev3 st

/-- `main` from line 209 on: `mainBuild`, then the emission of lines 315-397.
`canOpen` tells for each output file whether its `fopen` succeeds; a failed
`fopen` fails the `assert(f)` that follows it and the run aborts there.
`serialize` is not part of the sources: its call is recorded as a write. -/
def main (argv : List String) (opts : Options) (canOpen : OutFile → Bool)
    (fsys : String → Option ElfImage) (order : List Nat → List Nat)
    (augment : Nat → functions_map_t → functions_map_t) (fuel : Nat) : Outcome :=
  match mainBuild argv fsys order augment fuel with
  | Stage.ended out => out
  | Stage.built ev st =>
    let graphs := writeFiles canOpen (emitGraphs opts (st.functions.map Function.address))
    if graphs.2 then
      { events := ev ++ graphs.1.map Event.write ++ (emitSerialized opts).map Event.write,
        status := Status.exit 0 }
    else { events := ev ++ graphs.1.map Event.write, status := Status.abort }

/-- The events of the second section loop, however it ended. -/
def LoadResult.events : LoadResult → List Event
  | LoadResult.ok st => st.events
  | LoadResult.aborted ev => ev

/-- Specification side: the section is program bits and its address range,
with the end computed in 32-bit arithmetic, contains the entry point. -/
def containsEntry (start : Nat) (s : Section) : Prop :=
  s.hdr.sh_type = SHT_PROGBITS ∧ s.hdr.sh_addr ≤ start
    ∧ start < (s.hdr.sh_addr + s.hdr.sh_size) % 2 ^ 32

instance (start : Nat) (s : Section) : Decidable (containsEntry start s) := by
  unfold containsEntry
  infer_instance

/-- Specification side: the number of sections that contain the entry point. -/
def entryCandidates (elf : ElfImage) : Nat :=
  elf.sections.countP (fun s => decide (containsEntry elf.e_entry s))

/-- A small program image: an allocated, executable `.text` of four bytes at
4096, and a symbol table naming `main` and `helper`. -/
def exampleElf : ElfImage :=
  { e_entry := 4096,
    sections :=
      [{ hdr := { sh_type := 1, sh_flags := 6, sh_addr := 4096, sh_offset := 0,
                  sh_size := 4, sh_entsize := 0 },
         name := ".text", syms := [] },
       { hdr := { sh_type := 2, sh_flags := 0, sh_addr := 0, sh_offset := 4,
                  sh_size := 32, sh_entsize := 16 },
         name := ".symtab",
         syms := [{ st_value := 4096, name := some "main" },
                  { st_value := 8192, name := some "helper" }] }],
    file := List.replicate 36 0 }

/-- The same image with an entry point that no section contains. -/
def strayEntryElf : ElfImage := { exampleElf with e_entry := 20480 }

/-- The events of a run up to the stage reached. -/
def Stage.events : Stage → List Event
  | Stage.ended out => out.events
  | Stage.built ev _ => ev

/-- A program image with a single section: an allocated, executable `.text`
of four bytes at 4096, holding the entry point. -/
def textElf : ElfImage :=
  { e_entry := 4096,
    sections :=
      [{ hdr := { sh_type := 1, sh_flags := 6, sh_addr := 4096, sh_offset := 0,
                  sh_size := 4, sh_entsize := 0 },
         name := ".text", syms := [] }],
    file := [0, 0, 0, 0] }

/-- The events of a run on `textElf` up to the return of `build_cfg`. -/
def textLoadEvents : List Event :=
  [Event.openFile "a.out",
   Event.candidate 4096 ".text",
   Event.addModule 4096 4 "a.out",
   Event.addSection 4096 (SectionData.fileBytes [0, 0, 0, 0]) 4 5 ".text",
   Event.newFunction "_start (fake)" 4096]

/-- Options of a run with `--dot=out` alone. -/
def dotOptions : Options :=
  { dot := some "out", vcg := none, json := none, cfg_out := none }

/-- An environment whose symbol table names `main` at 4096 and `helper` at
8192, for a program called "a.out". -/
def namedEnv : DriverEnv :=
  { syms := read_symtab SymMaps.empty
      [{ st_value := 4096, name := some "main" }, { st_value := 8192, name := some "helper" }],
    prog_name := "a.out" }

/-- Final driver state of the main/helper program under `namedEnv`. -/
def mainHelperNamedFinal : DriverState :=
  { functions :=
      [{ address := 4096, name := "main", module := "a.out", pending := false,
         cfg := [{ insts := [{ address := 4096, call_targets := [8192] }] }] },
       { address := 8192, name := "helper", module := "a.out", pending := false,
         cfg := [{ insts := [] }] }],
    callgraph := [(4096, 8192), (4096, 8192)],
    augmented := [4096, 8192] }

/-! # Theorems -/

/-! ## Theorems: symbol table -/

theorem symStep_of_not_named (m : SymMaps) (s : Sym) (h : s.named = false) :
    symStep m s = m := by
  unfold Sym.named at h
  unfold symStep
  cases hn : s.name with
  | none => rfl
  | some n =>
    rw [hn] at h
    have : n = "" := by simpa using h
    simp [this]

theorem read_symtab_filter (m : SymMaps) (syms : List Sym) :
    read_symtab m syms = read_symtab m (syms.filter Sym.named) := by
  induction syms generalizing m with
  | nil => rfl
  | cons s rest ih =>
    cases hs : s.named with
    | false =>
      rw [List.filter_cons_of_neg (by simp [hs])]
      show read_symtab (symStep m s) rest = _
      rw [symStep_of_not_named m s hs]
      exact ih m
    | true =>
      rw [List.filter_cons_of_pos (by simp [hs])]
      show read_symtab (symStep m s) rest = read_symtab (symStep m s) _
      exact ih _

theorem read_symtab_addr2name (m : SymMaps) (syms : List Sym) (a : Nat) :
    (read_symtab m syms).addr2name a = (lastNameAt syms a).or (m.addr2name a) := by
  induction syms generalizing m with
  | nil => simp [read_symtab, lastNameAt]
  | cons s rest ih =>
    show (read_symtab (symStep m s) rest).addr2name a = _
    rw [ih]
    unfold lastNameAt
    rw [List.reverse_cons, List.find?_append]
    cases hf : rest.reverse.find? (fun s => s.named && decide (s.st_value = a)) with
    | some x =>
      have hp := List.find?_some hf
      have hx : x.named = true := by
        simp only [Bool.and_eq_true] at hp
        exact hp.1
      unfold Sym.named at hx
      cases hxn : x.name with
      | none => rw [hxn] at hx; cases hx
      | some n => simp [hxn]
    | none =>
      simp only [Option.none_or, Option.bind, Option.or]
      unfold symStep Sym.named
      cases hn : s.name with
      | none => simp [List.find?, Sym.named, hn]
      | some n =>
        by_cases hne : n = ""
        · simp [List.find?, Sym.named, hn, hne]
        · by_cases ha : a = s.st_value
          · simp [List.find?, Sym.named, hn, hne, ha]
          · have ha2 : ¬ s.st_value = a := fun h => ha h.symm
            simp [List.find?, Sym.named, hn, hne, ha, ha2]

theorem read_symtab_name2addr (m : SymMaps) (syms : List Sym) (k : String) :
    (read_symtab m syms).name2addr k
      = if k = "" then m.name2addr k else (lastAddrOf syms k).or (m.name2addr k) := by
  induction syms generalizing m with
  | nil => simp [read_symtab, lastAddrOf]
  | cons s rest ih =>
    show (read_symtab (symStep m s) rest).name2addr k = _
    rw [ih]
    by_cases hk : k = ""
    · simp only [hk, if_true]
      unfold symStep
      cases hn : s.name with
      | none => rfl
      | some n =>
        by_cases hne : n = ""
        · simp [hne]
        · have : ¬ "" = n := fun h => hne h.symm
          simp [hne, this]
    · simp only [hk, if_false]
      unfold lastAddrOf
      rw [List.reverse_cons, List.find?_append]
      cases hf : rest.reverse.find? (fun s => decide (s.name = some k)) with
      | some x => simp
      | none =>
        simp only [Option.none_or, Option.map, Option.or]
        unfold symStep
        cases hn : s.name with
        | none => simp [List.find?, hn]
        | some n =>
          by_cases hne : n = ""
          · have h2 : ¬ "" = k := fun h => hk h.symm
            simp [List.find?, hn, hne, h2]
          · by_cases hkn : k = n
            · simp [List.find?, hn, hne, hkn]
            · have : ¬ n = k := fun h => hkn h.symm
              simp [List.find?, hn, hne, hkn, this]

/-- C5: after `read_symtab` has processed a table starting from empty maps,
`funcname a` is the name of the last entry at `a` with a non-empty name and
"anon" when there is none; an entry whose name is NULL or empty leaves both
maps as they are (so the result is that of the table with those entries
removed); `name2addr` sends every non-empty name to the address of the last
entry carrying it. -/
theorem symbol_lookup_last_wins (syms : List Sym) (a : Nat) (k : String) :
    funcname (read_symtab SymMaps.empty syms) a = (lastNameAt syms a).getD "anon"
    ∧ (∀ (m : SymMaps) (s : Sym), symStep m s = if s.named then symStep m s else m)
    ∧ (∀ m : SymMaps, read_symtab m syms = read_symtab m (syms.filter Sym.named))
    ∧ (read_symtab SymMaps.empty syms).name2addr k
        = if k = "" then none else lastAddrOf syms k := by
  refine ⟨?_, ?_, fun m => read_symtab_filter m syms, ?_⟩
  · unfold funcname
    rw [read_symtab_addr2name]
    cases lastNameAt syms a <;> simp [SymMaps.empty]
  · intro m s
    cases hs : s.named with
    | false => simpa using symStep_of_not_named m s hs
    | true => simp
  · rw [read_symtab_name2addr]
    by_cases hk : k = ""
    · simp [hk, SymMaps.empty]
    · simp [hk, SymMaps.empty]


/-! ## Theorems: the scan phase of the driver -/

theorem mem_worklistInsert (wl : List Nat) (a x : Nat) :
    x ∈ worklistInsert wl a ↔ x ∈ wl ∨ x = a := by
  unfold worklistInsert
  by_cases h : a ∈ wl
  · simp only [h, if_true]
    constructor
    · exact Or.inl
    · rintro (h1 | h1)
      · exact h1
      · exact h1 ▸ h
  · simp [h]

theorem nodup_worklistInsert (wl : List Nat) (a : Nat) (h : wl.Nodup) :
    (worklistInsert wl a).Nodup := by
  unfold worklistInsert
  by_cases ha : a ∈ wl
  · simpa [ha] using h
  · simp only [ha, if_false]
    rw [List.nodup_append]
    refine ⟨h, List.nodup_singleton a, ?_⟩
    intro x hx hx2
    simp only [List.mem_singleton] at hx2
    exact ha (hx2 ▸ hx)

theorem scan_fold_none (fs : functions_map_t) (ps : List (Nat × Nat)) :
    ps.foldl (scanCall fs) none = none := by
  induction ps with
  | nil => rfl
  | cons p rest ih => simpa [List.foldl, scanCall] using ih

/-- What a successful scan returns: every visited pair is appended to the call
graph, every visited target is registered, and the new worklist holds the old
one plus exactly the visited targets that are pending. -/
theorem scan_fold_spec (fs : functions_map_t) (ps : List (Nat × Nat)) :
    ∀ (cg : List (Nat × Nat)) (wl : List Nat) (cg2 : List (Nat × Nat)) (wl2 : List Nat),
      ps.foldl (scanCall fs) (some (cg, wl)) = some (cg2, wl2) →
        cg2 = cg ++ ps
        ∧ (∀ p ∈ ps, (findFunction fs p.2).isSome)
        ∧ (∀ x, x ∈ wl2 ↔ x ∈ wl ∨ (∃ p ∈ ps, p.2 = x ∧ isPendingAt fs x = true))
        ∧ (wl.Nodup → wl2.Nodup) := by
  induction ps with
  | nil =>
    intro cg wl cg2 wl2 h
    simp only [List.foldl, Option.some.injEq, Prod.mk.injEq] at h
    obtain ⟨h1, h2⟩ := h
    subst h1 h2
    simp
  | cons p rest ih =>
    intro cg wl cg2 wl2 h
    rw [List.foldl_cons] at h
    cases hf : findFunction fs p.2 with
    | none =>
      have : scanCall fs (some (cg, wl)) p = none := by simp [scanCall, hf]
      rw [this, scan_fold_none] at h
      cases h
    | some t =>
      have hstep : scanCall fs (some (cg, wl)) p
          = some (cg ++ [p], if t.pending then worklistInsert wl p.2 else wl) := by
        simp [scanCall, hf]
      rw [hstep] at h
      obtain ⟨h1, h2, h3, h4⟩ := ih _ _ _ _ h
      refine ⟨by simp [h1], ?_, ?_, ?_⟩
      · intro q hq
        rcases List.mem_cons.1 hq with hq | hq
        · subst hq; simp [hf]
        · exact h2 q hq
      · intro x
        rw [h3 x]
        have hpend : isPendingAt fs p.2 = t.pending := by simp [isPendingAt, hf]
        by_cases htp : t.pending = true
        · simp only [htp, if_true, mem_worklistInsert]
          constructor
          · rintro ((hx | hx) | ⟨q, hq, hq2⟩)
            · exact Or.inl hx
            · refine Or.inr ⟨p, List.mem_cons_self _ _, hx.symm, ?_⟩
              rw [hx, hpend, htp]
            · exact Or.inr ⟨q, List.mem_cons_of_mem _ hq, hq2⟩
          · rintro (hx | ⟨q, hq, hq2⟩)
            · exact Or.inl (Or.inl hx)
            · rcases List.mem_cons.1 hq with hq | hq
              · subst hq; exact Or.inl (Or.inr hq2.1.symm)
              · exact Or.inr ⟨q, hq, hq2⟩
        · simp only [htp, if_false]
          constructor
          · rintro (hx | ⟨q, hq, hq2⟩)
            · exact Or.inl hx
            · exact Or.inr ⟨q, List.mem_cons_of_mem _ hq, hq2⟩
          · rintro (hx | ⟨q, hq, hq2⟩)
            · exact Or.inl hx
            · rcases List.mem_cons.1 hq with hq | hq
              · subst hq
                exfalso
                rw [← hq2.1, hpend] at hq2
                exact htp hq2.2
              · exact Or.inr ⟨q, hq, hq2⟩
      · intro hnd
        apply h4
        by_cases htp : t.pending = true
        · simpa [htp] using nodup_worklistInsert wl p.2 hnd
        · simpa [htp] using hnd

theorem scanFunctions_spec (fs : functions_map_t) (cg cg2 : List (Nat × Nat)) (wl2 : List Nat)
    (h : scanFunctions fs cg = some (cg2, wl2)) :
    cg2 = cg ++ callPairs fs
      ∧ (∀ p ∈ callPairs fs, (findFunction fs p.2).isSome)
      ∧ (∀ x, x ∈ wl2 ↔ ∃ p ∈ callPairs fs, p.2 = x ∧ isPendingAt fs x = true)
      ∧ wl2.Nodup := by
  obtain ⟨h1, h2, h3, h4⟩ := scan_fold_spec fs (callPairs fs) cg [] cg2 wl2 h
  refine ⟨h1, h2, ?_, h4 List.nodup_nil⟩
  intro x
  rw [h3 x]
  simp

theorem isBuilt_of_registered_not_pending (fs : functions_map_t) (x : Nat)
    (h1 : (findFunction fs x).isSome) (h2 : ¬ isPendingAt fs x = true) :
    isBuilt fs x = true := by
  unfold isBuilt
  unfold isPendingAt at h2
  cases hf : findFunction fs x with
  | none => rw [hf] at h1; cases h1
  | some f =>
    rw [hf] at h2
    simpa using h2

/-- One unfolding of the `while` loop on a non-empty worklist with fuel left. -/
theorem build_cfg_loop_succ (env : DriverEnv) (order : List Nat → List Nat)
    (augment : Nat → functions_map_t → functions_map_t) (fuel : Nat) (st : DriverState)
    (wl : List Nat) (hwl : wl ≠ []) :
    build_cfg_loop env order augment (fuel + 1) st wl
      = match processWorklist env augment st (order wl) with
        | none => Result.assertFailed
        | some st1 =>
          match scanFunctions st1.functions st1.callgraph with
          | none => Result.assertFailed
          | some (cg, wl1) =>
            build_cfg_loop env order augment fuel { st1 with callgraph := cg } wl1 := by
  rw [build_cfg_loop.eq_def]
  simp [hwl]

theorem build_cfg_loop_nil (env : DriverEnv) (order : List Nat → List Nat)
    (augment : Nat → functions_map_t → functions_map_t) (fuel : Nat) (st : DriverState) :
    build_cfg_loop env order augment fuel st [] = Result.done st := by
  rw [build_cfg_loop.eq_def]
  simp

theorem build_cfg_loop_zero (env : DriverEnv) (order : List Nat → List Nat)
    (augment : Nat → functions_map_t → functions_map_t) (st : DriverState)
    (wl : List Nat) (hwl : wl ≠ []) :
    build_cfg_loop env order augment 0 st wl = Result.outOfFuel := by
  rw [build_cfg_loop.eq_def]
  simp [hwl]

/-- When the loop returns after at least one pass, the last thing it did was a
scan of the final registry that found no pending call target. -/
theorem loop_done_last_scan (env : DriverEnv) (order : List Nat → List Nat)
    (augment : Nat → functions_map_t → functions_map_t) (fuel : Nat) :
    ∀ (st : DriverState) (wl : List Nat) (st2 : DriverState), wl ≠ [] →
      build_cfg_loop env order augment fuel st wl = Result.done st2 →
        (∃ cg0, st2.callgraph = cg0 ++ callPairs st2.functions)
        ∧ (∀ p ∈ callPairs st2.functions, isBuilt st2.functions p.2 = true) := by
  induction fuel with
  | zero =>
    intro st wl st2 hwl h
    rw [build_cfg_loop_zero _ _ _ _ _ hwl] at h
    cases h
  | succ n ih =>
    intro st wl st2 hwl h
    rw [build_cfg_loop_succ _ _ _ _ _ _ hwl] at h
    cases hp : processWorklist env augment st (order wl) with
    | none => rw [hp] at h; cases h
    | some st1 =>
      rw [hp] at h
      simp only at h
      cases hs : scanFunctions st1.functions st1.callgraph with
      | none => rw [hs] at h; cases h
      | some r =>
        obtain ⟨cg, wl1⟩ := r
        rw [hs] at h
        simp only at h
        by_cases hwl1 : wl1 = []
        · subst hwl1
          rw [build_cfg_loop_nil] at h
          injection h with h
          subst h
          obtain ⟨h1, h2, h3, _⟩ := scanFunctions_spec _ _ _ _ hs
          refine ⟨⟨st1.callgraph, h1⟩, ?_⟩
          intro p hp
          apply isBuilt_of_registered_not_pending _ _ (h2 p hp)
          intro hpen
          have : p.2 ∈ ([] : List Nat) := (h3 p.2).2 ⟨p, hp, rfl, hpen⟩
          cases this
        · exact ih _ _ _ hwl1 h

theorem initial_worklist_nil (fs : functions_map_t)
    (h : (fs.map Function.address).foldl worklistInsert [] = []) : fs = [] := by
  cases fs with
  | nil => rfl
  | cons f rest =>
    exfalso
    have key : ∀ (l acc : List Nat), acc ≠ [] → l.foldl worklistInsert acc ≠ [] := by
      intro l
      induction l with
      | nil => intro acc h; simpa using h
      | cons a l ih =>
        intro acc hacc
        rw [List.foldl_cons]
        apply ih
        intro h0
        have : a ∈ worklistInsert acc a := (mem_worklistInsert acc a a).2 (Or.inr rfl)
        rw [h0] at this
        cases this
    rw [List.map_cons, List.foldl_cons] at h
    exact key _ _ (by simp [worklistInsert]) h

/-- When `build_cfg` returns, the call graph ends with the edges of one scan
of the final registry, and every call target in that registry is built. -/
theorem build_cfg_done_last_scan (env : DriverEnv) (order : List Nat → List Nat)
    (augment : Nat → functions_map_t → functions_map_t) (fuel : Nat)
    (st st2 : DriverState) (h : build_cfg env order augment fuel st = Result.done st2) :
    (∃ cg0, st2.callgraph = cg0 ++ callPairs st2.functions)
      ∧ (∀ p ∈ callPairs st2.functions, isBuilt st2.functions p.2 = true) := by
  unfold build_cfg at h
  by_cases hwl : (st.functions.map Function.address).foldl worklistInsert [] = []
  · rw [hwl, build_cfg_loop_nil] at h
    injection h with h
    subst h
    have := initial_worklist_nil _ hwl
    rw [this]
    exact ⟨⟨st.callgraph, by simp [callPairs]⟩, by simp [callPairs]⟩
  · exact loop_done_last_scan env order augment fuel _ _ _ hwl h

theorem mem_callPairs (fs : functions_map_t) (c t : Nat) :
    (c, t) ∈ callPairs fs ↔ ∃ f ∈ fs, f.address = c ∧ t ∈ f.callTargets := by
  unfold callPairs
  simp only [List.mem_flatMap, List.mem_map, Prod.mk.injEq]
  constructor
  · rintro ⟨f, hf, t2, ht2, h1, h2⟩
    exact ⟨f, hf, h1, h2 ▸ ht2⟩
  · rintro ⟨f, hf, h1, h2⟩
    exact ⟨f, hf, t, h2, h1, rfl⟩

theorem mem_callTargets (f : Function) (t : Nat) :
    t ∈ f.callTargets ↔ ∃ bb ∈ f.cfg, ∃ i ∈ bb.insts, t ∈ i.call_targets := by
  unfold Function.callTargets
  simp only [List.mem_flatMap]

theorem processFunction_callgraph (env : DriverEnv)
    (augment : Nat → functions_map_t → functions_map_t) (st st1 : DriverState) (a : Nat)
    (h : processFunction env augment st a = some st1) : st1.callgraph = st.callgraph := by
  unfold processFunction at h
  cases hf : findFunction st.functions a with
  | none => rw [hf] at h; cases h
  | some f =>
    rw [hf] at h
    simp only [Option.some.injEq] at h
    rw [← h]

theorem processWorklist_callgraph (env : DriverEnv)
    (augment : Nat → functions_map_t → functions_map_t) (wl : List Nat) :
    ∀ (st st1 : DriverState), processWorklist env augment st wl = some st1 →
      st1.callgraph = st.callgraph := by
  induction wl with
  | nil =>
    intro st st1 h
    simp only [processWorklist, Option.some.injEq] at h
    rw [h]
  | cons a rest ih =>
    intro st st1 h
    rw [processWorklist] at h
    cases hp : processFunction env augment st a with
    | none => rw [hp] at h; cases h
    | some s =>
      rw [hp] at h
      simp only at h
      rw [ih _ _ h, processFunction_callgraph _ _ _ _ _ hp]

/-- A run that returns within one pass records exactly one scan. -/
theorem build_cfg_one_pass (env : DriverEnv) (order : List Nat → List Nat)
    (augment : Nat → functions_map_t → functions_map_t) (st st2 : DriverState)
    (h : build_cfg env order augment 1 st = Result.done st2) :
    st2.callgraph = st.callgraph ++ callPairs st2.functions := by
  unfold build_cfg at h
  by_cases hwl : (st.functions.map Function.address).foldl worklistInsert [] = []
  · rw [hwl, build_cfg_loop_nil] at h
    injection h with h
    subst h
    rw [initial_worklist_nil _ hwl]
    simp [callPairs]
  · rw [build_cfg_loop_succ _ _ _ _ _ _ hwl] at h
    cases hp : processWorklist env augment st
        (order ((st.functions.map Function.address).foldl worklistInsert [])) with
    | none => rw [hp] at h; cases h
    | some st1 =>
      rw [hp] at h
      simp only at h
      cases hs : scanFunctions st1.functions st1.callgraph with
      | none => rw [hs] at h; cases h
      | some r =>
        obtain ⟨cg, wl1⟩ := r
        rw [hs] at h
        simp only at h
        by_cases hwl1 : wl1 = []
        · subst hwl1
          rw [build_cfg_loop_nil] at h
          injection h with h
          subst h
          obtain ⟨h1, _⟩ := scanFunctions_spec _ _ _ _ hs
          simp only [h1, processWorklist_callgraph _ _ _ _ _ hp]
        · rw [build_cfg_loop_zero _ _ _ _ _ hwl1] at h
          cases h

/-- C2: when `build_cfg` returns, every call target of every call instruction
in the CFG of every registered function has its edge (caller, target) in the
call graph, whatever `augmentCfg` does and in whatever order the worklist is
walked. -/
theorem call_edge_completeness (env : DriverEnv) (order : List Nat → List Nat)
    (augment : Nat → functions_map_t → functions_map_t) (fuel : Nat)
    (st st2 : DriverState)
    (h : build_cfg env order augment fuel st = Result.done st2) :
    ∀ c ∈ st2.functions, ∀ bb ∈ c.cfg, ∀ i ∈ bb.insts, ∀ t ∈ i.call_targets,
      (c.address, t) ∈ st2.callgraph := by
  intro c hc bb hbb i hi t ht
  obtain ⟨⟨cg0, hcg⟩, _⟩ := build_cfg_done_last_scan env order augment fuel st st2 h
  rw [hcg]
  apply List.mem_append_right
  rw [mem_callPairs]
  exact ⟨c, hc, rfl, (mem_callTargets c t).2 ⟨bb, hbb, i, hi, ht⟩⟩

/-- Witness of C2 on the mutually recursive pair: the run returns and both
edges are present. -/
theorem call_edge_completeness_witness :
    build_cfg exampleEnv id (tableAugment mutualCalls) 5
        (seedState 4096 "_start (fake)" "a.out") = Result.done mutualFinal
    ∧ (4096, 8192) ∈ mutualFinal.callgraph ∧ (8192, 4096) ∈ mutualFinal.callgraph :=
  ⟨by decide,
   call_edge_completeness exampleEnv id (tableAugment mutualCalls) 5
     (seedState 4096 "_start (fake)" "a.out") mutualFinal (by decide)
     { address := 4096, name := "anon", module := "a.out", pending := false,
       cfg := [{ insts := [{ address := 4096, call_targets := [8192] }] }] } (by decide)
     { insts := [{ address := 4096, call_targets := [8192] }] } (by decide)
     { address := 4096, call_targets := [8192] } (by decide) 8192 (by decide),
   call_edge_completeness exampleEnv id (tableAugment mutualCalls) 5
     (seedState 4096 "_start (fake)" "a.out") mutualFinal (by decide)
     { address := 8192, name := "anon", module := "a.out", pending := false,
       cfg := [{ insts := [{ address := 8192, call_targets := [4096] }] }] } (by decide)
     { insts := [{ address := 8192, call_targets := [4096] }] } (by decide)
     { address := 8192, call_targets := [4096] } (by decide) 4096 (by decide)⟩

/-- C1, as the code has it: when `build_cfg` returns, the call graph holds at
least as many (c, t) edges as the CFGs registered at c have call-target
entries for t, because every pass appends the edges of a scan of the whole
registry; the two numbers are equal when the call graph started empty and the
run took a single pass. -/
theorem call_edges_at_least_call_sites (env : DriverEnv) (order : List Nat → List Nat)
    (augment : Nat → functions_map_t → functions_map_t) (fuel : Nat)
    (st st2 : DriverState)
    (h : build_cfg env order augment fuel st = Result.done st2) :
    (∀ c t, callCount st2.functions c t ≤ edgeCount st2.callgraph c t)
    ∧ (st.callgraph = [] → build_cfg env order augment 1 st = Result.done st2 →
        ∀ c t, edgeCount st2.callgraph c t = callCount st2.functions c t) := by
  constructor
  · intro c t
    obtain ⟨⟨cg0, hcg⟩, _⟩ := build_cfg_done_last_scan env order augment fuel st st2 h
    unfold callCount edgeCount
    rw [hcg, List.count_append]
    exact Nat.le_add_left _ _
  · intro hcg h1 c t
    have := build_cfg_one_pass env order augment st st2 h1
    unfold callCount edgeCount
    rw [this, hcg, List.nil_append]

/-- Witness of the amended C1 on the self-recursive function: one pass, and
the edge is recorded once. -/
theorem call_edges_at_least_call_sites_witness :
    build_cfg exampleEnv id (tableAugment selfCalls) 1
        (seedState 4096 "_start (fake)" "a.out") = Result.done selfFinal
    ∧ callCount selfFinal.functions 4096 4096 ≤ edgeCount selfFinal.callgraph 4096 4096
    ∧ edgeCount selfFinal.callgraph 4096 4096 = callCount selfFinal.functions 4096 4096 :=
  ⟨by decide,
   (call_edges_at_least_call_sites exampleEnv id (tableAugment selfCalls) 1
     (seedState 4096 "_start (fake)" "a.out") selfFinal (by decide)).1 4096 4096,
   (call_edges_at_least_call_sites exampleEnv id (tableAugment selfCalls) 1
     (seedState 4096 "_start (fake)" "a.out") selfFinal (by decide)).2 rfl (by decide)
     4096 4096⟩

/-- Counterexample to C1 as stated: main has one call to helper, and when
`build_cfg` returns the edge main -> helper has been recorded twice. -/
theorem call_edge_recorded_twice :
    build_cfg exampleEnv id (tableAugment mainHelperCalls) 5
        (seedState 4096 "_start (fake)" "a.out") = Result.done mainHelperFinal
    ∧ callCount mainHelperFinal.functions 4096 8192 = 1
    ∧ edgeCount mainHelperFinal.callgraph 4096 8192 = 2 := by
  refine ⟨by decide, by decide, by decide⟩

/-! ## Theorems: the registry operations -/

theorem findFunction_some (fs : functions_map_t) (x : Nat) (f : Function)
    (h : findFunction fs x = some f) : f ∈ fs ∧ f.address = x := by
  unfold findFunction at h
  refine ⟨List.mem_of_find?_eq_some h, ?_⟩
  simpa using List.find?_some h

theorem findFunction_cons (g : Function) (fs : functions_map_t) (x : Nat) :
    findFunction (g :: fs) x = if g.address = x then some g else findFunction fs x := by
  unfold findFunction
  rw [List.find?_cons]
  by_cases h : g.address = x
  · simp [h]
  · have hb : (g.address == x) = false := by simpa using h
    simp [h, hb]

theorem findFunction_updateFunction (fs : functions_map_t) (a x : Nat)
    (g : Function → Function) (hg : ∀ f, (g f).address = f.address) :
    findFunction (updateFunction fs a g) x
      = (findFunction fs x).map (fun f => if f.address = a then g f else f) := by
  induction fs with
  | nil => rfl
  | cons h rest ih =>
    have hupd : updateFunction (h :: rest) a g
        = (if h.address = a then g h else h) :: updateFunction rest a g := rfl
    rw [hupd, findFunction_cons, findFunction_cons, ih]
    have haddr : (if h.address = a then g h else h).address = h.address := by
      by_cases ha : h.address = a
      · simp [ha, hg]
      · simp [ha]
    rw [haddr]
    by_cases hx : h.address = x
    · simp [hx]
    · simp [hx]

theorem findFunction_assignFunction (fs : functions_map_t) (f : Function) (x : Nat) :
    findFunction (assignFunction fs f) x
      = if x = f.address then some f else findFunction fs x := by
  induction fs with
  | nil =>
    rw [assignFunction, findFunction_cons]
    by_cases h : f.address = x
    · simp [h]
    · have : ¬ x = f.address := fun e => h e.symm
      simp [h, this, findFunction]
  | cons g rest ih =>
    rw [assignFunction]
    by_cases hg : g.address = f.address
    · simp only [hg, if_true]
      rw [findFunction_cons, findFunction_cons, hg]
      by_cases h : f.address = x
      · simp [h]
      · have : ¬ x = f.address := fun e => h e.symm
        simp [h, this]
    · simp only [hg, if_false]
      by_cases hlt : f.address < g.address
      · simp only [hlt, if_true]
        rw [findFunction_cons]
        by_cases h : f.address = x
        · simp [h]
        · have : ¬ x = f.address := fun e => h e.symm
          simp [h, this]
      · simp only [hlt, if_false]
        rw [findFunction_cons, findFunction_cons, ih]
        by_cases h : g.address = x
        · have : ¬ x = f.address := fun e => hg (h.trans e)
          simp [h, this]
        · simp [h]

theorem mem_assignFunction (fs : functions_map_t) (f h : Function)
    (hm : h ∈ assignFunction fs f) : h = f ∨ h ∈ fs := by
  induction fs with
  | nil =>
    rw [assignFunction] at hm
    simp only [List.mem_singleton] at hm
    exact Or.inl hm
  | cons g rest ih =>
    rw [assignFunction] at hm
    by_cases hg : g.address = f.address
    · simp only [hg, if_true, List.mem_cons] at hm
      rcases hm with hm | hm
      · exact Or.inl hm
      · exact Or.inr (List.mem_cons_of_mem _ hm)
    · simp only [hg, if_false] at hm
      by_cases hlt : f.address < g.address
      · simp only [hlt, if_true, List.mem_cons] at hm
        rcases hm with hm | hm | hm
        · exact Or.inl hm
        · exact Or.inr (hm ▸ List.mem_cons_self _ _)
        · exact Or.inr (List.mem_cons_of_mem _ hm)
      · simp only [hlt, if_false, List.mem_cons] at hm
        rcases hm with hm | hm
        · exact Or.inr (hm ▸ List.mem_cons_self _ _)
        · rcases ih hm with h1 | h1
          · exact Or.inl h1
          · exact Or.inr (List.mem_cons_of_mem _ h1)

theorem callPairs_cons (g : Function) (fs : functions_map_t) :
    callPairs (g :: fs) = g.callTargets.map (fun t => (g.address, t)) ++ callPairs fs := by
  simp [callPairs]

/-- Assigning a function whose address and call targets agree with the entry
it replaces loses no call pair. -/
theorem callPairs_assignFunction_mono (fs : functions_map_t) (f : Function)
    (hsame : ∀ g, findFunction fs f.address = some g → g.callTargets = f.callTargets)
    (p : Nat × Nat) (hp : p ∈ callPairs fs) : p ∈ callPairs (assignFunction fs f) := by
  induction fs with
  | nil => simp [callPairs] at hp
  | cons g rest ih =>
    rw [assignFunction]
    rw [callPairs_cons, List.mem_append] at hp
    by_cases hg : g.address = f.address
    · simp only [hg, if_true]
      rw [callPairs_cons, List.mem_append]
      rcases hp with hp | hp
      · left
        have := hsame g (by rw [findFunction_cons]; simp [hg])
        rw [← this, ← hg]
        exact hp
      · exact Or.inr hp
    · simp only [hg, if_false]
      by_cases hlt : f.address < g.address
      · simp only [hlt, if_true]
        rw [callPairs_cons, callPairs_cons, List.mem_append, List.mem_append]
        exact Or.inr hp
      · simp only [hlt, if_false]
        rw [callPairs_cons, List.mem_append]
        rcases hp with hp | hp
        · exact Or.inl hp
        · right
          apply ih _ hp
          intro g2 hg2
          apply hsame
          rw [findFunction_cons]
          simpa [hg] using hg2

theorem callPairs_updateFunction (fs : functions_map_t) (a : Nat) (g : Function → Function)
    (hg : ∀ f, (g f).address = f.address) (hc : ∀ f, (g f).callTargets = f.callTargets) :
    callPairs (updateFunction fs a g) = callPairs fs := by
  induction fs with
  | nil => rfl
  | cons h rest ih =>
    have hupd : updateFunction (h :: rest) a g
        = (if h.address = a then g h else h) :: updateFunction rest a g := rfl
    rw [hupd, callPairs_cons, callPairs_cons, ih]
    by_cases ha : h.address = a
    · simp [ha, hg, hc]
    · simp [ha]

theorem mem_updateFunction_address (fs : functions_map_t) (a : Nat) (g : Function → Function)
    (hg : ∀ f, (g f).address = f.address) (h : Function)
    (hm : h ∈ updateFunction fs a g) : ∃ h0 ∈ fs, h.address = h0.address := by
  unfold updateFunction at hm
  rw [List.mem_map] at hm
  obtain ⟨h0, hh0, rfl⟩ := hm
  refine ⟨h0, hh0, ?_⟩
  by_cases ha : h0.address = a
  · simp [ha, hg]
  · simp [ha]

/-- What one successful iteration of the worklist loop does to the driver
state, in terms of the registry `fs1` that `augmentCfg` is called on. -/
theorem processFunction_spec (env : DriverEnv)
    (augment : Nat → functions_map_t → functions_map_t) (st st1 : DriverState) (a : Nat)
    (h : processFunction env augment st a = some st1) :
    ∃ fs1 : functions_map_t,
      (∀ x, isBuilt fs1 x = isBuilt st.functions x)
      ∧ (∀ x, isPendingAt fs1 x = isPendingAt st.functions x)
      ∧ callPairs fs1 = callPairs st.functions
      ∧ (∀ g ∈ fs1, ∃ g0 ∈ st.functions, g.address = g0.address)
      ∧ (findFunction st.functions a).isSome
      ∧ st1.augmented = st.augmented ++ [a]
      ∧ (∀ x, x ≠ a → findFunction st1.functions x = findFunction (augment a fs1) x)
      ∧ (isBuilt st1.functions a = true
          ∨ (isBuilt st.functions a = true ∧ isBuilt (augment a fs1) a = false))
      ∧ (∀ p ∈ callPairs (augment a fs1), p ∈ callPairs st1.functions)
      ∧ (∀ g ∈ st1.functions, g.address = a ∨ g ∈ augment a fs1) := by
  unfold processFunction at h
  cases hf : findFunction st.functions a with
  | none => rw [hf] at h; cases h
  | some f =>
    rw [hf] at h
    simp only [Option.some.injEq] at h
    obtain ⟨hfmem, hfa⟩ := findFunction_some _ _ _ hf
    -- the setters of lines 126-128
    let named : Function → Function := fun g =>
      { g with name := funcname env.syms a, module := env.prog_name }
    have hnamed_addr : ∀ g, (named g).address = g.address := fun _ => rfl
    have hnamed_ct : ∀ g, (named g).callTargets = g.callTargets := fun _ => rfl
    let fs1 : functions_map_t :=
      if f.pending then updateFunction st.functions a named else st.functions
    let f1 : Function := if f.pending then named f else f
    have hf1a : f1.address = a := by
      show (if f.pending then named f else f).address = a
      by_cases hp : f.pending = true
      · simp [hp, hnamed_addr, hfa]
      · simp [hp, hfa]
    have hf1p : f1.pending = f.pending := by
      show (if f.pending then named f else f).pending = f.pending
      by_cases hp : f.pending = true
      · simp [hp, named]
      · simp [hp]
    have hfind1 : ∀ x, (findFunction fs1 x).map Function.pending
        = (findFunction st.functions x).map Function.pending := by
      intro x
      show (findFunction (if f.pending then updateFunction st.functions a named
        else st.functions) x).map Function.pending = _
      by_cases hp : f.pending = true
      · simp only [hp, if_true]
        rw [findFunction_updateFunction _ _ _ _ hnamed_addr]
        cases findFunction st.functions x with
        | none => rfl
        | some g =>
          by_cases hga : g.address = a
          · simp [hga, named]
          · simp [hga]
      · simp [hp]
    refine ⟨fs1, ?_, ?_, ?_, ?_, by simp [hf], ?_, ?_, ?_, ?_, ?_⟩
    · intro x
      have := hfind1 x
      unfold isBuilt
      cases h1 : findFunction fs1 x <;> cases h2 : findFunction st.functions x <;>
        simp [h1, h2] at this ⊢
      exact this
    · intro x
      have := hfind1 x
      unfold isPendingAt
      cases h1 : findFunction fs1 x <;> cases h2 : findFunction st.functions x <;>
        simp [h1, h2] at this ⊢
      exact this
    · show callPairs (if f.pending then updateFunction st.functions a named
        else st.functions) = _
      by_cases hp : f.pending = true
      · simp only [hp, if_true]
        exact callPairs_updateFunction _ _ _ hnamed_addr hnamed_ct
      · simp [hp]
    · intro g hg
      have hg2 : g ∈ (if f.pending then updateFunction st.functions a named
        else st.functions) := hg
      by_cases hp : f.pending = true
      · simp only [hp, if_true] at hg2
        exact mem_updateFunction_address _ _ _ hnamed_addr g hg2
      · simp only [hp] at hg2
        exact ⟨g, hg2, rfl⟩
    · rw [← h]
    · intro x hx
      rw [← h]
      show findFunction (if ((findFunction (augment a fs1) a).getD f1).pending
        then assignFunction (augment a fs1)
          { (findFunction (augment a fs1) a).getD f1 with pending := false }
        else augment a fs1) x = _
      split
      · rw [findFunction_assignFunction]
        have hadd : ((findFunction (augment a fs1) a).getD f1).address = a := by
          cases h2 : findFunction (augment a fs1) a with
          | none => simpa using hf1a
          | some g => simpa using (findFunction_some _ _ _ h2).2
        simp [hadd, hx]
      · rfl
    · rw [← h]
      show isBuilt (if ((findFunction (augment a fs1) a).getD f1).pending
        then assignFunction (augment a fs1)
          { (findFunction (augment a fs1) a).getD f1 with pending := false }
        else augment a fs1) a = true ∨ _
      have hadd : ((findFunction (augment a fs1) a).getD f1).address = a := by
        cases h2 : findFunction (augment a fs1) a with
        | none => simpa using hf1a
        | some g => simpa using (findFunction_some _ _ _ h2).2
      by_cases hp2 : ((findFunction (augment a fs1) a).getD f1).pending = true
      · left
        simp only [hp2, if_true]
        unfold isBuilt
        rw [findFunction_assignFunction]
        simp [hadd]
      · simp only [hp2]
        cases h2 : findFunction (augment a fs1) a with
        | some g =>
          left
          rw [h2] at hp2
          simp only [Option.getD_some] at hp2
          simpa [isBuilt, h2] using hp2
        | none =>
          right
          rw [h2] at hp2
          simp only [Option.getD_none] at hp2
          rw [hf1p] at hp2
          constructor
          · unfold isBuilt; rw [hf]; simpa using hp2
          · unfold isBuilt; rw [h2]
    · intro p hp
      rw [← h]
      show p ∈ callPairs (if ((findFunction (augment a fs1) a).getD f1).pending
        then assignFunction (augment a fs1)
          { (findFunction (augment a fs1) a).getD f1 with pending := false }
        else augment a fs1)
      split
      · apply callPairs_assignFunction_mono _ _ _ p hp
        intro g hg
        have hadd : ((findFunction (augment a fs1) a).getD f1).address = a := by
          cases h2 : findFunction (augment a fs1) a with
          | none => simpa using hf1a
          | some g => simpa using (findFunction_some _ _ _ h2).2
        have hg2 : findFunction (augment a fs1) a = some g := by
          simpa [hadd] using hg
        rw [hg2]
        rfl
      · exact hp
    · intro g hg
      rw [← h] at hg
      have hg2 : g ∈ (if ((findFunction (augment a fs1) a).getD f1).pending
        then assignFunction (augment a fs1)
          { (findFunction (augment a fs1) a).getD f1 with pending := false }
        else augment a fs1) := hg
      have hadd : ((findFunction (augment a fs1) a).getD f1).address = a := by
        cases h2 : findFunction (augment a fs1) a with
        | none => simpa using hf1a
        | some g => simpa using (findFunction_some _ _ _ h2).2
      split at hg2
      · rcases mem_assignFunction _ _ _ hg2 with h1 | h1
        · left; rw [h1]; exact hadd
        · exact Or.inr h1
      · exact Or.inr hg2

/-- After its iteration of the worklist loop, the function is not pending. -/
theorem processFunction_not_pending (env : DriverEnv)
    (augment : Nat → functions_map_t → functions_map_t) (st st1 : DriverState) (a : Nat)
    (h : processFunction env augment st a = some st1) :
    isPendingAt st1.functions a = false := by
  unfold processFunction at h
  cases hf : findFunction st.functions a with
  | none => rw [hf] at h; cases h
  | some f =>
    rw [hf] at h
    simp only [Option.some.injEq] at h
    obtain ⟨_, hfa⟩ := findFunction_some _ _ _ hf
    let named : Function → Function := fun g =>
      { g with name := funcname env.syms a, module := env.prog_name }
    let fs1 : functions_map_t :=
      if f.pending then updateFunction st.functions a named else st.functions
    let f1 : Function := if f.pending then named f else f
    have hf1a : f1.address = a := by
      show (if f.pending then named f else f).address = a
      by_cases hp : f.pending = true
      · simp [hp, named, hfa]
      · simp [hp, hfa]
    have hadd : ((findFunction (augment a fs1) a).getD f1).address = a := by
      cases h2 : findFunction (augment a fs1) a with
      | none => simpa using hf1a
      | some g => simpa using (findFunction_some _ _ _ h2).2
    rw [← h]
    show isPendingAt (if ((findFunction (augment a fs1) a).getD f1).pending
      then assignFunction (augment a fs1)
        { (findFunction (augment a fs1) a).getD f1 with pending := false }
      else augment a fs1) a = false
    by_cases hp2 : ((findFunction (augment a fs1) a).getD f1).pending = true
    · simp only [hp2, if_true]
      unfold isPendingAt
      rw [findFunction_assignFunction]
      simp [hadd]
    · simp only [hp2]
      cases h2 : findFunction (augment a fs1) a with
      | some g =>
        rw [h2] at hp2
        simp only [Option.getD_some] at hp2
        simpa [isPendingAt, h2] using hp2
      | none => simp [isPendingAt, h2]

/-! ## Theorems: one pass over the worklist -/

theorem processFunction_built (env : DriverEnv)
    (augment : Nat → functions_map_t → functions_map_t) (hk : KeepsBuilt augment)
    (st st1 : DriverState) (a : Nat)
    (h : processFunction env augment st a = some st1) :
    (∀ x, isBuilt st.functions x = true → isBuilt st1.functions x = true)
      ∧ isBuilt st1.functions a = true := by
  obtain ⟨fs1, hb, _, _, _, _, _, hne, ha, _, _⟩ := processFunction_spec env augment st st1 a h
  have hA : isBuilt st1.functions a = true := by
    rcases ha with ha | ⟨ha1, ha2⟩
    · exact ha
    · have := hk a fs1 a (by rw [hb]; exact ha1)
      rw [ha2] at this
      cases this
  refine ⟨?_, hA⟩
  intro x hx
  by_cases hxa : x = a
  · rw [hxa]; exact hA
  · have := hk a fs1 x (by rw [hb]; exact hx)
    unfold isBuilt at this ⊢
    rw [hne x hxa]
    exact this

theorem processFunction_below (env : DriverEnv) (N : Nat)
    (augment : Nat → functions_map_t → functions_map_t) (hN : StaysBelow N augment)
    (st st1 : DriverState) (a : Nat)
    (h : processFunction env augment st a = some st1)
    (hst : ∀ f ∈ st.functions, f.address < N) :
    ∀ f ∈ st1.functions, f.address < N := by
  obtain ⟨fs1, _, _, _, haddr, hreg, _, _, _, _, hmem⟩ :=
    processFunction_spec env augment st st1 a h
  have hfs1 : ∀ f ∈ fs1, f.address < N := by
    intro f hf
    obtain ⟨g0, hg0, e⟩ := haddr f hf
    rw [e]
    exact hst g0 hg0
  intro g hg
  rcases hmem g hg with h1 | h1
  · cases hf : findFunction st.functions a with
    | none => rw [hf] at hreg; cases hreg
    | some f =>
      obtain ⟨hf1, hf2⟩ := findFunction_some _ _ _ hf
      rw [h1, ← hf2]
      exact hst f hf1
  · exact hN a fs1 hfs1 g h1

theorem processWorklist_cons (env : DriverEnv)
    (augment : Nat → functions_map_t → functions_map_t) (st st2 : DriverState) (a : Nat)
    (rest : List Nat) (h : processWorklist env augment st (a :: rest) = some st2) :
    ∃ st1, processFunction env augment st a = some st1
      ∧ processWorklist env augment st1 rest = some st2 := by
  rw [processWorklist] at h
  cases hp : processFunction env augment st a with
  | none => rw [hp] at h; cases h
  | some s =>
    rw [hp] at h
    exact ⟨s, rfl, h⟩

/-- After a pass, whatever was built is still built and every function of the
worklist is built. -/
theorem processWorklist_built (env : DriverEnv)
    (augment : Nat → functions_map_t → functions_map_t) (hk : KeepsBuilt augment)
    (wl : List Nat) :
    ∀ (st st1 : DriverState), processWorklist env augment st wl = some st1 →
      (∀ x, isBuilt st.functions x = true → isBuilt st1.functions x = true)
        ∧ (∀ x ∈ wl, isBuilt st1.functions x = true) := by
  induction wl with
  | nil =>
    intro st st1 h
    simp only [processWorklist, Option.some.injEq] at h
    subst h
    exact ⟨fun _ hx => hx, by simp⟩
  | cons a rest ih =>
    intro st st2 h
    obtain ⟨st1, h1, h2⟩ := processWorklist_cons env augment st st2 a rest h
    obtain ⟨hm1, ha⟩ := processFunction_built env augment hk st st1 a h1
    obtain ⟨hm2, hall⟩ := ih st1 st2 h2
    refine ⟨fun x hx => hm2 x (hm1 x hx), ?_⟩
    intro x hx
    rcases List.mem_cons.1 hx with hx | hx
    · rw [hx]; exact hm2 a ha
    · exact hall x hx

theorem processWorklist_below (env : DriverEnv) (N : Nat)
    (augment : Nat → functions_map_t → functions_map_t) (hN : StaysBelow N augment)
    (wl : List Nat) :
    ∀ (st st1 : DriverState), processWorklist env augment st wl = some st1 →
      (∀ f ∈ st.functions, f.address < N) → ∀ f ∈ st1.functions, f.address < N := by
  induction wl with
  | nil =>
    intro st st1 h hst
    simp only [processWorklist, Option.some.injEq] at h
    subst h
    exact hst
  | cons a rest ih =>
    intro st st2 h hst
    obtain ⟨st1, h1, h2⟩ := processWorklist_cons env augment st st2 a rest h
    exact ih st1 st2 h2 (processFunction_below env N augment hN st st1 a h1 hst)

/-! ## Theorems: termination of the driver -/

theorem isPendingAt_registered (fs : functions_map_t) (x : Nat)
    (h : isPendingAt fs x = true) :
    (∃ f ∈ fs, f.address = x) ∧ isBuilt fs x = false := by
  unfold isPendingAt at h
  unfold isBuilt
  cases hf : findFunction fs x with
  | none => rw [hf] at h; cases h
  | some f =>
    rw [hf] at h
    obtain ⟨h1, h2⟩ := findFunction_some _ _ _ hf
    exact ⟨⟨f, h1, h2⟩, by simpa using h⟩

theorem builtCount_lt_of_unbuilt (N : Nat) (fs : functions_map_t) (x : Nat)
    (hx : x < N) (hb : isBuilt fs x = false) : builtCount N fs < N := by
  unfold builtCount
  have hss : (Finset.range N).filter (fun x => isBuilt fs x = true) ⊂ Finset.range N := by
    rw [Finset.ssubset_iff_of_subset (Finset.filter_subset _ _)]
    refine ⟨x, Finset.mem_range.2 hx, ?_⟩
    simp [hb]
  simpa using Finset.card_lt_card hss

theorem builtCount_lt_of_new (N : Nat) (fs fs1 : functions_map_t) (x : Nat)
    (hmono : ∀ y, isBuilt fs y = true → isBuilt fs1 y = true)
    (hx : x < N) (hb : isBuilt fs x = false) (hb1 : isBuilt fs1 x = true) :
    builtCount N fs < builtCount N fs1 := by
  unfold builtCount
  apply Finset.card_lt_card
  rw [Finset.ssubset_iff_of_subset]
  · refine ⟨x, ?_, ?_⟩
    · simp [hx, hb1]
    · simp [hb]
  · intro y hy
    simp only [Finset.mem_filter, Finset.mem_range] at hy ⊢
    exact ⟨hy.1, hmono y hy.2⟩

/-- From a worklist of pending functions, the loop needs at most as many
passes as there are addresses below `N` whose function is not built yet. -/
theorem loop_terminates (env : DriverEnv) (order : List Nat → List Nat)
    (augment : Nat → functions_map_t → functions_map_t) (N : Nat)
    (ho : WalksWorklist order) (hk : KeepsBuilt augment) (hN : StaysBelow N augment)
    (fuel : Nat) :
    ∀ (st : DriverState) (wl : List Nat),
      (∀ f ∈ st.functions, f.address < N) →
      (∀ x ∈ wl, isPendingAt st.functions x = true) →
      N - builtCount N st.functions ≤ fuel →
      build_cfg_loop env order augment fuel st wl ≠ Result.outOfFuel := by
  induction fuel with
  | zero =>
    intro st wl hst hwl hm
    cases wl with
    | nil => rw [build_cfg_loop_nil]; exact fun h => by cases h
    | cons x rest =>
      exfalso
      obtain ⟨⟨f, hf, hfx⟩, hb⟩ := isPendingAt_registered _ _ (hwl x (List.mem_cons_self _ _))
      have := builtCount_lt_of_unbuilt N st.functions x (hfx ▸ hst f hf) hb
      omega
  | succ n ih =>
    intro st wl hst hwl hm
    by_cases hnil : wl = []
    · rw [hnil, build_cfg_loop_nil]; exact fun h => by cases h
    · rw [build_cfg_loop_succ _ _ _ _ _ _ hnil]
      cases hp : processWorklist env augment st (order wl) with
      | none => exact fun h => by cases h
      | some st1 =>
        simp only
        cases hs : scanFunctions st1.functions st1.callgraph with
        | none => exact fun h => by cases h
        | some r =>
          obtain ⟨cg, wl1⟩ := r
          simp only
          obtain ⟨hmono, hall⟩ := processWorklist_built env augment hk _ _ _ hp
          have hst1 := processWorklist_below env N augment hN _ _ _ hp hst
          obtain ⟨_, _, hwl1, _⟩ := scanFunctions_spec _ _ _ _ hs
          obtain ⟨x, hx⟩ := List.exists_mem_of_ne_nil wl hnil
          obtain ⟨⟨f, hf, hfx⟩, hb⟩ := isPendingAt_registered _ _ (hwl x hx)
          have hx1 : isBuilt st1.functions x = true := hall x ((ho wl).mem_iff.2 hx)
          have hlt := builtCount_lt_of_new N st.functions st1.functions x hmono
            (hfx ▸ hst f hf) hb hx1
          apply ih
          · exact hst1
          · intro y hy
            obtain ⟨p, _, _, hpen⟩ := (hwl1 y).1 hy
            exact hpen
          · show N - builtCount N st1.functions ≤ n
            omega

/-- C3: the driver terminates.  If `augmentCfg` never makes a built function
pending again and the registry only ever holds functions at 32-bit entry
addresses (one per address), then `build_cfg` started with at least
2^32 + 1 units of fuel, one per pass of the `while` loop, does not run out of
fuel: the first pass is followed by at most one pass per entry address. -/
theorem build_cfg_terminates (env : DriverEnv) (order : List Nat → List Nat)
    (augment : Nat → functions_map_t → functions_map_t)
    (ho : WalksWorklist order) (hk : KeepsBuilt augment)
    (hN : StaysBelow (2 ^ 32) augment)
    (st : DriverState) (hst : ∀ f ∈ st.functions, f.address < 2 ^ 32)
    (fuel : Nat) (hfuel : 2 ^ 32 + 1 ≤ fuel) :
    build_cfg env order augment fuel st ≠ Result.outOfFuel := by
  unfold build_cfg
  generalize (st.functions.map Function.address).foldl worklistInsert [] = wl
  obtain ⟨n, rfl⟩ : ∃ n, fuel = n + 1 := ⟨fuel - 1, by omega⟩
  by_cases hnil : wl = []
  · rw [hnil, build_cfg_loop_nil]; exact fun h => by cases h
  · rw [build_cfg_loop_succ _ _ _ _ _ _ hnil]
    cases hp : processWorklist env augment st (order wl) with
    | none => exact fun h => by cases h
    | some st1 =>
      simp only
      cases hs : scanFunctions st1.functions st1.callgraph with
      | none => exact fun h => by cases h
      | some r =>
        obtain ⟨cg, wl1⟩ := r
        simp only
        have hst1 := processWorklist_below env (2 ^ 32) augment hN _ _ _ hp hst
        obtain ⟨_, _, hwl1, _⟩ := scanFunctions_spec _ _ _ _ hs
        apply loop_terminates env order augment (2 ^ 32) ho hk hN
        · exact hst1
        · intro y hy
          obtain ⟨p, _, _, hpen⟩ := (hwl1 y).1 hy
          exact hpen
        · show 2 ^ 32 - builtCount (2 ^ 32) st1.functions ≤ n
          have : 2 ^ 32 - builtCount (2 ^ 32) st1.functions ≤ 2 ^ 32 := Nat.sub_le _ _
          omega

/-! ## Theorems: the table-driven decoder meets the assumptions -/

theorem callPairs_updateFunction_mono (fs : functions_map_t) (a : Nat)
    (g : Function → Function) (hg : ∀ f, (g f).address = f.address)
    (hc : ∀ f t, t ∈ f.callTargets → t ∈ (g f).callTargets)
    (p : Nat × Nat) (hp : p ∈ callPairs fs) : p ∈ callPairs (updateFunction fs a g) := by
  obtain ⟨c, t⟩ := p
  rw [mem_callPairs] at hp ⊢
  obtain ⟨f, hf, hfc, hft⟩ := hp
  refine ⟨if f.address = a then g f else f, ?_, ?_, ?_⟩
  · unfold updateFunction
    exact List.mem_map.2 ⟨f, hf, rfl⟩
  · by_cases ha : f.address = a
    · simp only [ha, if_true, hg]; rw [← hfc, ha]
    · simpa [ha] using hfc
  · by_cases ha : f.address = a
    · simpa [ha] using hc f t hft
    · simpa [ha] using hft

theorem findFunction_discover (fs : functions_map_t) (t x : Nat) :
    findFunction (discover fs t) x
      = if (findFunction fs t).isSome then findFunction fs x
        else if x = t then some (discovered t) else findFunction fs x := by
  unfold discover
  by_cases h : (findFunction fs t).isSome = true
  · simp [h]
  · have h0 : (findFunction fs t).isSome = false := by simpa using h
    simp only [h0, Bool.false_eq_true, if_false]
    rw [findFunction_assignFunction]
    rfl

theorem isBuilt_discover (fs : functions_map_t) (t x : Nat) :
    isBuilt (discover fs t) x = isBuilt fs x := by
  unfold isBuilt
  rw [findFunction_discover]
  by_cases h : (findFunction fs t).isSome = true
  · simp [h]
  · simp only [h, if_false]
    by_cases hx : x = t
    · subst hx
      have : findFunction fs x = none := by simpa using h
      simp [this, discovered]
    · simp [hx]

theorem isPendingAt_discover (fs : functions_map_t) (t x : Nat)
    (h : isPendingAt (discover fs t) x = true) : isPendingAt fs x = true ∨ x = t := by
  unfold isPendingAt at h ⊢
  rw [findFunction_discover] at h
  by_cases h1 : (findFunction fs t).isSome = true
  · simp only [h1, if_true] at h
    exact Or.inl h
  · simp only [h1, if_false] at h
    by_cases hx : x = t
    · exact Or.inr hx
    · simp only [hx, if_false] at h
      exact Or.inl h

theorem mem_discover (fs : functions_map_t) (t : Nat) (h : Function)
    (hm : h ∈ discover fs t) : h ∈ fs ∨ h = discovered t := by
  unfold discover at hm
  by_cases h1 : (findFunction fs t).isSome = true
  · simp only [h1, if_true] at hm
    exact Or.inl hm
  · simp only [h1, if_false] at hm
    rcases mem_assignFunction _ _ _ hm with h2 | h2
    · exact Or.inr h2
    · exact Or.inl h2

theorem callPairs_discover_mono (fs : functions_map_t) (t : Nat) (p : Nat × Nat)
    (hp : p ∈ callPairs fs) : p ∈ callPairs (discover fs t) := by
  unfold discover
  by_cases h1 : (findFunction fs t).isSome = true
  · simpa [h1] using hp
  · simp only [h1, if_false]
    apply callPairs_assignFunction_mono _ _ _ p hp
    intro g hg
    have : findFunction fs t = none := by simpa using h1
    rw [show (discovered t).address = t from rfl, this] at hg
    cases hg

theorem foldl_discover_spec (ts : List Nat) :
    ∀ fs : functions_map_t,
      (∀ x, isBuilt (ts.foldl discover fs) x = isBuilt fs x)
      ∧ (∀ x, isPendingAt (ts.foldl discover fs) x = true →
          isPendingAt fs x = true ∨ x ∈ ts)
      ∧ (∀ h ∈ ts.foldl discover fs, h ∈ fs ∨ ∃ t ∈ ts, h = discovered t)
      ∧ (∀ p ∈ callPairs fs, p ∈ callPairs (ts.foldl discover fs)) := by
  induction ts with
  | nil =>
    intro fs
    exact ⟨fun _ => rfl, fun _ h => Or.inl h, fun _ h => Or.inl h, fun _ h => h⟩
  | cons t rest ih =>
    intro fs
    obtain ⟨h1, h2, h3, h4⟩ := ih (discover fs t)
    rw [List.foldl_cons]
    refine ⟨?_, ?_, ?_, ?_⟩
    · intro x
      rw [h1, isBuilt_discover]
    · intro x hx
      rcases h2 x hx with h | h
      · rcases isPendingAt_discover _ _ _ h with h | h
        · exact Or.inl h
        · exact Or.inr (h ▸ List.mem_cons_self _ _)
      · exact Or.inr (List.mem_cons_of_mem _ h)
    · intro h hh
      rcases h3 h hh with h | ⟨t2, ht2, h⟩
      · rcases mem_discover _ _ _ h with h | h
        · exact Or.inl h
        · exact Or.inr ⟨t, List.mem_cons_self _ _, h⟩
      · exact Or.inr ⟨t2, List.mem_cons_of_mem _ ht2, h⟩
    · intro p hp
      exact h4 p (callPairs_discover_mono _ _ _ hp)

theorem isBuilt_updateFunction (fs : functions_map_t) (a x : Nat) (g : Function → Function)
    (hg : ∀ f, (g f).address = f.address) (hp : ∀ f, (g f).pending = f.pending) :
    isBuilt (updateFunction fs a g) x = isBuilt fs x := by
  unfold isBuilt
  rw [findFunction_updateFunction _ _ _ _ hg]
  cases findFunction fs x with
  | none => rfl
  | some f =>
    by_cases ha : f.address = a
    · simp [ha, hp]
    · simp [ha]

theorem isPendingAt_updateFunction (fs : functions_map_t) (a x : Nat) (g : Function → Function)
    (hg : ∀ f, (g f).address = f.address) (hp : ∀ f, (g f).pending = f.pending) :
    isPendingAt (updateFunction fs a g) x = isPendingAt fs x := by
  unfold isPendingAt
  rw [findFunction_updateFunction _ _ _ _ hg]
  cases findFunction fs x with
  | none => rfl
  | some f =>
    by_cases ha : f.address = a
    · simp [ha, hp]
    · simp [ha]

/-- The CFG setter of `tableAugment` keeps address, flag and call targets. -/
theorem tableBlock_facts (calls : Nat → List Nat) (a : Nat) :
    (∀ f, (tableBlock calls a f).address = f.address)
      ∧ (∀ f, (tableBlock calls a f).pending = f.pending)
      ∧ (∀ f t, t ∈ f.callTargets → t ∈ (tableBlock calls a f).callTargets) := by
  refine ⟨?_, ?_, ?_⟩
  · intro f
    unfold tableBlock
    by_cases h : f.cfg = [] <;> simp [h]
  · intro f
    unfold tableBlock
    by_cases h : f.cfg = [] <;> simp [h]
  · intro f t ht
    unfold tableBlock
    by_cases h : f.cfg = []
    · exfalso
      simp [Function.callTargets, h] at ht
    · simpa [h] using ht

theorem tableAugment_leavesFlags (calls : Nat → List Nat) :
    LeavesFlags (tableAugment calls) := by
  intro a fs x
  obtain ⟨hg, hp, _⟩ := tableBlock_facts calls a
  unfold tableAugment
  simp only
  split
  · exact isBuilt_updateFunction _ _ _ _ hg hp
  · rw [(foldl_discover_spec _ _).1, isBuilt_updateFunction _ _ _ _ hg hp]

theorem tableAugment_keepsBuilt (calls : Nat → List Nat) :
    KeepsBuilt (tableAugment calls) := by
  intro a fs x h
  rw [tableAugment_leavesFlags calls a fs x]
  exact h

theorem tableAugment_staysBelow (calls : Nat → List Nat) :
    StaysBelow (2 ^ 32) (tableAugment calls) := by
  intro a fs hfs f hf
  obtain ⟨hg, _, _⟩ := tableBlock_facts calls a
  unfold tableAugment at hf
  simp only at hf
  have hupd : ∀ h ∈ updateFunction fs a (tableBlock calls a), h.address < 2 ^ 32 := by
    intro h hh
    obtain ⟨h0, hh0, e⟩ := mem_updateFunction_address _ _ _ hg h hh
    rw [e]
    exact hfs h0 hh0
  split at hf
  · exact hupd f hf
  · rcases (foldl_discover_spec _ _).2.2.1 f hf with h | ⟨t, ht, h⟩
    · exact hupd f h
    · rw [h]
      simpa using (List.mem_filter.1 ht).2

theorem tableAugment_keepsCallTargets (calls : Nat → List Nat) :
    KeepsCallTargets (tableAugment calls) := by
  intro a fs p hp
  obtain ⟨hg, _, hc⟩ := tableBlock_facts calls a
  have h1 := callPairs_updateFunction_mono fs a _ hg hc p hp
  unfold tableAugment
  simp only
  split
  · exact h1
  · exact (foldl_discover_spec _ _).2.2.2 p h1

theorem tableAugment_attaches (calls : Nat → List Nat) :
    AttachesDiscovered (tableAugment calls) := by
  intro a fs x hx
  obtain ⟨hg, hp, _⟩ := tableBlock_facts calls a
  unfold tableAugment at hx ⊢
  simp only at hx ⊢
  split at hx
  · left
    rw [isPendingAt_updateFunction _ _ _ _ hg hp] at hx
    exact hx
  · rename_i f hf
    rcases (foldl_discover_spec _ _).2.1 x hx with h | h
    · left
      rw [isPendingAt_updateFunction _ _ _ _ hg hp] at h
      exact h
    · right
      apply (foldl_discover_spec _ _).2.2.2
      obtain ⟨hfm, hfa⟩ := findFunction_some _ _ _ hf
      rw [mem_callPairs]
      exact ⟨f, hfm, hfa, (List.mem_filter.1 h).1⟩

theorem walksWorklist_id : WalksWorklist id := fun wl => List.Perm.refl wl

/-- Witness of C3 on the mutually recursive pair. -/
theorem build_cfg_terminates_witness :
    WalksWorklist id ∧ KeepsBuilt (tableAugment mutualCalls)
    ∧ StaysBelow (2 ^ 32) (tableAugment mutualCalls)
    ∧ build_cfg exampleEnv id (tableAugment mutualCalls) (2 ^ 32 + 1)
        (seedState 4096 "_start (fake)" "a.out") ≠ Result.outOfFuel :=
  ⟨walksWorklist_id, tableAugment_keepsBuilt mutualCalls, tableAugment_staysBelow mutualCalls,
   build_cfg_terminates exampleEnv id (tableAugment mutualCalls) walksWorklist_id
     (tableAugment_keepsBuilt mutualCalls) (tableAugment_staysBelow mutualCalls)
     (seedState 4096 "_start (fake)" "a.out") (by decide) (2 ^ 32 + 1) (Nat.le_refl _)⟩

/-! ## Theorems: every discovered function gets built -/

theorem processFunction_pending (env : DriverEnv)
    (augment : Nat → functions_map_t → functions_map_t)
    (ha : AttachesDiscovered augment)
    (hc : KeepsCallTargets augment) (st st1 : DriverState) (a : Nat)
    (h : processFunction env augment st a = some st1) :
    (∀ x, isPendingAt st1.functions x = true →
        (isPendingAt st.functions x = true ∧ x ≠ a)
          ∨ ∃ p ∈ callPairs st1.functions, p.2 = x)
      ∧ (∀ p ∈ callPairs st.functions, p ∈ callPairs st1.functions) := by
  have hnp := processFunction_not_pending env augment st st1 a h
  obtain ⟨fs1, _, hpen, hcp, _, _, _, hne, _, hmono, _⟩ :=
    processFunction_spec env augment st st1 a h
  constructor
  · intro x hx
    have hxa : x ≠ a := by
      intro e
      rw [e, hnp] at hx
      cases hx
    have hx2 : isPendingAt (augment a fs1) x = true := by
      unfold isPendingAt at hx ⊢
      rw [← hne x hxa]
      exact hx
    rcases ha a fs1 x hx2 with h1 | h1
    · left
      rw [hpen] at h1
      exact ⟨h1, hxa⟩
    · exact Or.inr ⟨(a, x), hmono _ h1, rfl⟩
  · intro p hp
    rw [← hcp] at hp
    exact hmono p (hc a fs1 p hp)

theorem processWorklist_pending (env : DriverEnv)
    (augment : Nat → functions_map_t → functions_map_t)
    (ha : AttachesDiscovered augment)
    (hc : KeepsCallTargets augment) (wl : List Nat) :
    ∀ (st st1 : DriverState), processWorklist env augment st wl = some st1 →
      (∀ x, isPendingAt st1.functions x = true →
          (isPendingAt st.functions x = true ∧ x ∉ wl)
            ∨ ∃ p ∈ callPairs st1.functions, p.2 = x)
        ∧ (∀ p ∈ callPairs st.functions, p ∈ callPairs st1.functions) := by
  induction wl with
  | nil =>
    intro st st1 h
    simp only [processWorklist, Option.some.injEq] at h
    subst h
    exact ⟨fun x hx => Or.inl ⟨hx, by simp⟩, fun _ hp => hp⟩
  | cons a rest ih =>
    intro st st2 h
    obtain ⟨st1, h1, h2⟩ := processWorklist_cons env augment st st2 a rest h
    obtain ⟨hs1, hs2⟩ := processFunction_pending env augment ha hc st st1 a h1
    obtain ⟨hr1, hr2⟩ := ih st1 st2 h2
    refine ⟨?_, fun p hp => hr2 p (hs2 p hp)⟩
    intro x hx
    rcases hr1 x hx with ⟨hx1, hx2⟩ | hx1
    · rcases hs1 x hx1 with ⟨hx3, hx4⟩ | ⟨p, hp, hpx⟩
      · left
        refine ⟨hx3, ?_⟩
        intro hmem
        rcases List.mem_cons.1 hmem with e | e
        · exact hx4 e
        · exact hx2 e
      · exact Or.inr ⟨p, hr2 p hp, hpx⟩
    · exact Or.inr hx1

/-- If every pending function is in the worklist when the loop is entered,
no registered function is pending when it returns. -/
theorem loop_no_pending (env : DriverEnv) (order : List Nat → List Nat)
    (augment : Nat → functions_map_t → functions_map_t)
    (ho : WalksWorklist order) (ha : AttachesDiscovered augment)
    (hc : KeepsCallTargets augment) (fuel : Nat) :
    ∀ (st : DriverState) (wl : List Nat) (st2 : DriverState),
      (∀ x, isPendingAt st.functions x = true → x ∈ wl) →
      build_cfg_loop env order augment fuel st wl = Result.done st2 →
      ∀ x, isPendingAt st2.functions x = false := by
  induction fuel with
  | zero =>
    intro st wl st2 hinv h x
    by_cases hnil : wl = []
    · rw [hnil, build_cfg_loop_nil] at h
      injection h with h
      subst h
      cases hx : isPendingAt st.functions x with
      | false => rfl
      | true => have := hinv x hx; rw [hnil] at this; cases this
    · rw [build_cfg_loop_zero _ _ _ _ _ hnil] at h
      cases h
  | succ n ih =>
    intro st wl st2 hinv h x
    by_cases hnil : wl = []
    · rw [hnil, build_cfg_loop_nil] at h
      injection h with h
      subst h
      cases hx : isPendingAt st.functions x with
      | false => rfl
      | true => have := hinv x hx; rw [hnil] at this; cases this
    · rw [build_cfg_loop_succ _ _ _ _ _ _ hnil] at h
      cases hp : processWorklist env augment st (order wl) with
      | none => rw [hp] at h; cases h
      | some st1 =>
        rw [hp] at h
        simp only at h
        cases hs : scanFunctions st1.functions st1.callgraph with
        | none => rw [hs] at h; cases h
        | some r =>
          obtain ⟨cg, wl1⟩ := r
          rw [hs] at h
          simp only at h
          obtain ⟨hpend, _⟩ := processWorklist_pending env augment ha hc _ _ _ hp
          obtain ⟨_, _, hwl1, _⟩ := scanFunctions_spec _ _ _ _ hs
          apply ih _ _ _ _ h
          intro y hy
          rcases hpend y hy with ⟨hy1, hy2⟩ | ⟨p, hp1, hp2⟩
          · exact absurd ((ho wl).mem_iff.2 (hinv y hy1)) hy2
          · exact (hwl1 y).2 ⟨p, hp1, hp2, hy⟩

theorem mem_foldl_worklistInsert (l : List Nat) :
    ∀ (acc : List Nat) (x : Nat),
      x ∈ l.foldl worklistInsert acc ↔ x ∈ acc ∨ x ∈ l := by
  induction l with
  | nil => intro acc x; simp
  | cons a rest ih =>
    intro acc x
    rw [List.foldl_cons, ih, mem_worklistInsert, List.mem_cons]
    constructor
    · rintro ((h | h) | h)
      · exact Or.inl h
      · exact Or.inr (Or.inl h)
      · exact Or.inr (Or.inr h)
    · rintro (h | h | h)
      · exact Or.inl (Or.inl h)
      · exact Or.inl (Or.inr h)
      · exact Or.inr h

/-- Under the two assumptions on `augmentCfg`, no registered function is
pending when `build_cfg` returns. -/
theorem registered_functions_all_built (env : DriverEnv) (order : List Nat → List Nat)
    (augment : Nat → functions_map_t → functions_map_t)
    (ho : WalksWorklist order) (ha : AttachesDiscovered augment)
    (hc : KeepsCallTargets augment) (fuel : Nat) (st st2 : DriverState)
    (h : build_cfg env order augment fuel st = Result.done st2) :
    ∀ x f, findFunction st2.functions x = some f → f.pending = false := by
  intro x f hf
  have := loop_no_pending env order augment ho ha hc fuel st _ st2 (by
    intro y hy
    obtain ⟨⟨g, hg, hgy⟩, _⟩ := isPendingAt_registered _ _ hy
    rw [mem_foldl_worklistInsert]
    right
    exact List.mem_map.2 ⟨g, hg, hgy⟩) h x
  unfold isPendingAt at this
  rw [hf] at this
  exact this

/-! ## Theorems: each function is augmented once -/

theorem processFunction_trace (env : DriverEnv)
    (augment : Nat → functions_map_t → functions_map_t) (hl : LeavesFlags augment)
    (st st1 : DriverState) (a : Nat)
    (h : processFunction env augment st a = some st1)
    (hnb : isBuilt st.functions a = false) :
    st1.augmented = st.augmented ++ [a]
      ∧ (∀ x, isBuilt st1.functions x = true ↔ isBuilt st.functions x = true ∨ x = a) := by
  obtain ⟨fs1, hb, _, _, _, _, haug, hne, ha, _, _⟩ :=
    processFunction_spec env augment st st1 a h
  refine ⟨haug, ?_⟩
  have hA : isBuilt st1.functions a = true := by
    rcases ha with ha | ⟨ha1, _⟩
    · exact ha
    · rw [hnb] at ha1; cases ha1
  intro x
  by_cases hxa : x = a
  · subst hxa
    simp [hA]
  · have e : isBuilt st1.functions x = isBuilt st.functions x := by
      rw [← hb x, ← hl a fs1 x]
      unfold isBuilt
      rw [hne x hxa]
    rw [e]
    simp [hxa]

theorem processWorklist_trace (env : DriverEnv)
    (augment : Nat → functions_map_t → functions_map_t) (hl : LeavesFlags augment)
    (wl : List Nat) :
    ∀ (st st1 : DriverState), processWorklist env augment st wl = some st1 →
      wl.Nodup → (∀ x ∈ wl, isBuilt st.functions x = false) →
      st1.augmented = st.augmented ++ wl
        ∧ (∀ x, isBuilt st1.functions x = true ↔ isBuilt st.functions x = true ∨ x ∈ wl) := by
  induction wl with
  | nil =>
    intro st st1 h _ _
    simp only [processWorklist, Option.some.injEq] at h
    subst h
    simp
  | cons a rest ih =>
    intro st st2 h hnd hnb
    obtain ⟨st1, h1, h2⟩ := processWorklist_cons env augment st st2 a rest h
    obtain ⟨ht1, ht2⟩ := processFunction_trace env augment hl st st1 a h1
      (hnb a (List.mem_cons_self _ _))
    rw [List.nodup_cons] at hnd
    have hnb1 : ∀ x ∈ rest, isBuilt st1.functions x = false := by
      intro x hx
      cases hbx : isBuilt st1.functions x with
      | false => rfl
      | true =>
        exfalso
        rcases (ht2 x).1 hbx with h3 | h3
        · rw [hnb x (List.mem_cons_of_mem _ hx)] at h3; cases h3
        · exact hnd.1 (h3 ▸ hx)
    obtain ⟨hr1, hr2⟩ := ih st1 st2 h2 hnd.2 hnb1
    refine ⟨by rw [hr1, ht1]; simp, ?_⟩
    intro x
    rw [hr2 x, ht2 x, List.mem_cons]
    constructor
    · rintro ((h3 | h3) | h3)
      · exact Or.inl h3
      · exact Or.inr (Or.inl h3)
      · exact Or.inr (Or.inr h3)
    · rintro (h3 | h3 | h3)
      · exact Or.inl (Or.inl h3)
      · exact Or.inl (Or.inr h3)
      · exact Or.inr h3

/-- If the worklist holds distinct functions that are not built and the trace
lists exactly the built functions, each once, the same is true of the trace
when the loop returns. -/
theorem loop_trace (env : DriverEnv) (order : List Nat → List Nat)
    (augment : Nat → functions_map_t → functions_map_t)
    (ho : WalksWorklist order) (hl : LeavesFlags augment) (fuel : Nat) :
    ∀ (st : DriverState) (wl : List Nat) (st2 : DriverState),
      wl.Nodup → (∀ x ∈ wl, isBuilt st.functions x = false) →
      st.augmented.Nodup → (∀ x, x ∈ st.augmented ↔ isBuilt st.functions x = true) →
      build_cfg_loop env order augment fuel st wl = Result.done st2 →
      st2.augmented.Nodup ∧ (∀ x, x ∈ st2.augmented ↔ isBuilt st2.functions x = true) := by
  induction fuel with
  | zero =>
    intro st wl st2 _ _ hnd hiff h
    by_cases hnil : wl = []
    · rw [hnil, build_cfg_loop_nil] at h
      injection h with h
      subst h
      exact ⟨hnd, hiff⟩
    · rw [build_cfg_loop_zero _ _ _ _ _ hnil] at h
      cases h
  | succ n ih =>
    intro st wl st2 hwnd hwnb hnd hiff h
    by_cases hnil : wl = []
    · rw [hnil, build_cfg_loop_nil] at h
      injection h with h
      subst h
      exact ⟨hnd, hiff⟩
    · rw [build_cfg_loop_succ _ _ _ _ _ _ hnil] at h
      cases hp : processWorklist env augment st (order wl) with
      | none => rw [hp] at h; cases h
      | some st1 =>
        rw [hp] at h
        simp only at h
        cases hs : scanFunctions st1.functions st1.callgraph with
        | none => rw [hs] at h; cases h
        | some r =>
          obtain ⟨cg, wl1⟩ := r
          rw [hs] at h
          simp only at h
          have hond : (order wl).Nodup := (ho wl).nodup_iff.2 hwnd
          have honb : ∀ x ∈ order wl, isBuilt st.functions x = false :=
            fun x hx => hwnb x ((ho wl).mem_iff.1 hx)
          obtain ⟨ht1, ht2⟩ := processWorklist_trace env augment hl _ _ _ hp hond honb
          obtain ⟨_, _, hwl1, hwl1nd⟩ := scanFunctions_spec _ _ _ _ hs
          apply ih _ _ _ hwl1nd _ _ _ h
          · intro y hy
            obtain ⟨p, _, _, hpen⟩ := (hwl1 y).1 hy
            exact (isPendingAt_registered _ _ hpen).2
          · show st1.augmented.Nodup
            rw [ht1, List.nodup_append]
            refine ⟨hnd, hond, ?_⟩
            intro x hx1 hx2
            have := (hiff x).1 hx1
            rw [honb x hx2] at this
            cases this
          · intro x
            show x ∈ st1.augmented ↔ isBuilt st1.functions x = true
            rw [ht1, List.mem_append, ht2 x, hiff x]

theorem nodup_foldl_worklistInsert (l : List Nat) :
    ∀ acc : List Nat, acc.Nodup → (l.foldl worklistInsert acc).Nodup := by
  induction l with
  | nil => intro acc h; exact h
  | cons a rest ih =>
    intro acc h
    rw [List.foldl_cons]
    exact ih _ (nodup_worklistInsert acc a h)

/-- C10: in a run of `build_cfg` seeded with a single pending entry function,
if `augmentCfg` leaves the pending flags alone (what it creates is pending),
attaches what it creates as a call target of the function it augments and
never detaches a call target, then when `build_cfg` returns `augmentCfg` has
been invoked exactly once for every registered function, and for no address
more than once. -/
theorem augmented_exactly_once (env : DriverEnv) (order : List Nat → List Nat)
    (augment : Nat → functions_map_t → functions_map_t)
    (ho : WalksWorklist order) (hl : LeavesFlags augment)
    (ha : AttachesDiscovered augment) (hc : KeepsCallTargets augment)
    (fuel : Nat) (entry : Nat) (entry_name module : String) (st2 : DriverState)
    (h : build_cfg env order augment fuel (seedState entry entry_name module)
      = Result.done st2) :
    (∀ x f, findFunction st2.functions x = some f → st2.augmented.count x = 1)
    ∧ (∀ x, st2.augmented.count x ≤ 1) := by
  have hnb : ∀ x, isBuilt (seedState entry entry_name module).functions x = false := by
    intro x
    unfold isBuilt seedState
    simp only [findFunction_cons]
    by_cases hx : entry = x
    · simp [hx]
    · simp [hx, findFunction]
  have htrace := loop_trace env order augment ho hl fuel
    (seedState entry entry_name module) _ st2
    (nodup_foldl_worklistInsert _ [] List.nodup_nil)
    (fun x _ => hnb x) List.nodup_nil
    (by intro x; rw [hnb x]; simp [seedState]) h
  obtain ⟨hnd, hiff⟩ := htrace
  have hall := (registered_functions_all_built env order augment ho ha hc fuel
    (seedState entry entry_name module) st2 h)
  refine ⟨?_, fun x => List.nodup_iff_count_le_one.1 hnd x⟩
  intro x f hf
  apply List.count_eq_one_of_mem hnd
  rw [hiff x]
  unfold isBuilt
  rw [hf]
  simp [hall x f hf]

/-- Witness of C10 on the mutually recursive pair: both functions are
augmented once. -/
theorem augmented_exactly_once_witness :
    build_cfg exampleEnv id (tableAugment mutualCalls) 5
        (seedState 4096 "_start (fake)" "a.out") = Result.done mutualFinal
    ∧ mutualFinal.augmented.count 4096 = 1 ∧ mutualFinal.augmented.count 8192 = 1 :=
  ⟨by decide,
   (augmented_exactly_once exampleEnv id (tableAugment mutualCalls) walksWorklist_id
     (tableAugment_leavesFlags mutualCalls) (tableAugment_attaches mutualCalls)
     (tableAugment_keepsCallTargets mutualCalls) 5 4096 "_start (fake)" "a.out"
     mutualFinal (by decide)).1 4096
     { address := 4096, name := "anon", module := "a.out", pending := false,
       cfg := [{ insts := [{ address := 4096, call_targets := [8192] }] }] } (by decide),
   (augmented_exactly_once exampleEnv id (tableAugment mutualCalls) walksWorklist_id
     (tableAugment_leavesFlags mutualCalls) (tableAugment_attaches mutualCalls)
     (tableAugment_keepsCallTargets mutualCalls) 5 4096 "_start (fake)" "a.out"
     mutualFinal (by decide)).1 8192
     { address := 8192, name := "anon", module := "a.out", pending := false,
       cfg := [{ insts := [{ address := 8192, call_targets := [4096] }] }] } (by decide)⟩

/-! ## Theorems: every built function is named -/

theorem processFunction_names (env : DriverEnv)
    (augment : Nat → functions_map_t → functions_map_t) (hn : KeepsNames augment)
    (st st1 : DriverState) (a : Nat)
    (h : processFunction env augment st a = some st1)
    (hpend : isPendingAt st.functions a = true) :
    (∀ g, findFunction st1.functions a = some g →
        g.name = funcname env.syms a ∧ g.module = env.prog_name)
    ∧ (∀ x, x ≠ a → ∀ g g0, findFunction st1.functions x = some g →
        findFunction st.functions x = some g0 → g.name = g0.name ∧ g.module = g0.module) := by
  unfold processFunction at h
  cases hf : findFunction st.functions a with
  | none => rw [hf] at h; cases h
  | some f =>
    rw [hf] at h
    simp only [Option.some.injEq] at h
    obtain ⟨_, hfa⟩ := findFunction_some _ _ _ hf
    have hfp : f.pending = true := by
      unfold isPendingAt at hpend
      rw [hf] at hpend
      exact hpend
    let named : Function → Function := fun g =>
      { g with name := funcname env.syms a, module := env.prog_name }
    have hnamed_addr : ∀ g, (named g).address = g.address := fun _ => rfl
    let fs1 : functions_map_t :=
      if f.pending then updateFunction st.functions a named else st.functions
    let f1 : Function := if f.pending then named f else f
    have hfs1 : fs1 = updateFunction st.functions a named := by
      show (if f.pending then updateFunction st.functions a named else st.functions) = _
      simp [hfp]
    have hf1 : f1 = named f := by
      show (if f.pending then named f else f) = _
      simp [hfp]
    have hfind1a : findFunction fs1 a = some (named f) := by
      rw [hfs1, findFunction_updateFunction _ _ _ _ hnamed_addr, hf]
      simp [hfa]
    have hfind1x : ∀ x, x ≠ a → findFunction fs1 x = findFunction st.functions x := by
      intro x hx
      rw [hfs1, findFunction_updateFunction _ _ _ _ hnamed_addr]
      cases hx2 : findFunction st.functions x with
      | none => rfl
      | some g0 =>
        have : g0.address ≠ a := by
          rw [(findFunction_some _ _ _ hx2).2]; exact hx
        simp [this]
    have hadd : ((findFunction (augment a fs1) a).getD f1).address = a := by
      cases h2 : findFunction (augment a fs1) a with
      | none => rw [hf1]; simpa using hfa
      | some g => simpa using (findFunction_some _ _ _ h2).2
    have hf2names : ((findFunction (augment a fs1) a).getD f1).name = funcname env.syms a
        ∧ ((findFunction (augment a fs1) a).getD f1).module = env.prog_name := by
      cases h2 : findFunction (augment a fs1) a with
      | none =>
        simp only [Option.getD_none]
        rw [hf1]
        exact ⟨rfl, rfl⟩
      | some g2 =>
        simp only [Option.getD_some]
        exact hn a fs1 a (named f) g2 hfind1a h2
    have hfun : st1.functions = (if ((findFunction (augment a fs1) a).getD f1).pending
        then assignFunction (augment a fs1)
          { (findFunction (augment a fs1) a).getD f1 with pending := false }
        else augment a fs1) := by
      rw [← h]
    constructor
    · intro g hg
      rw [hfun] at hg
      by_cases hp2 : ((findFunction (augment a fs1) a).getD f1).pending = true
      · simp only [hp2, if_true] at hg
        rw [findFunction_assignFunction] at hg
        simp only [hadd, if_true, Option.some.injEq] at hg
        rw [← hg]
        exact hf2names
      · have hp3 : ((findFunction (augment a fs1) a).getD f1).pending = false := by
          simpa using hp2
        rw [if_neg (by rw [hp3]; exact Bool.false_ne_true)] at hg
        rw [hg] at hf2names
        simpa using hf2names
    · intro x hx g g0 hg hg0
      rw [hfun] at hg
      have hg2 : findFunction (augment a fs1) x = some g := by
        by_cases hp2 : ((findFunction (augment a fs1) a).getD f1).pending = true
        · simp only [hp2, if_true] at hg
          rw [findFunction_assignFunction] at hg
          simpa [hadd, hx] using hg
        · simpa [hp2] using hg
      exact hn a fs1 x g0 g (by rw [hfind1x x hx]; exact hg0) hg2

theorem processFunction_named (env : DriverEnv)
    (augment : Nat → functions_map_t → functions_map_t)
    (hl : LeavesFlags augment) (hn : KeepsNames augment)
    (st st1 : DriverState) (a : Nat)
    (h : processFunction env augment st a = some st1)
    (hnb : isBuilt st.functions a = false)
    (hN : BuiltAreNamed env st.functions) : BuiltAreNamed env st1.functions := by
  have hreg : (findFunction st.functions a).isSome := by
    obtain ⟨_, _, _, _, _, hreg, _⟩ := processFunction_spec env augment st st1 a h
    exact hreg
  have hpend : isPendingAt st.functions a = true := by
    unfold isBuilt at hnb
    unfold isPendingAt
    cases hf : findFunction st.functions a with
    | none => rw [hf] at hreg; cases hreg
    | some f =>
      rw [hf] at hnb
      simpa using hnb
  obtain ⟨hn1, hn2⟩ := processFunction_names env augment hn st st1 a h hpend
  obtain ⟨_, hb⟩ := processFunction_trace env augment hl st st1 a h hnb
  intro x f hf hfp
  by_cases hxa : x = a
  · subst hxa
    exact hn1 f hf
  · have hbx : isBuilt st1.functions x = true := by
      unfold isBuilt
      rw [hf]
      simpa using hfp
    rcases (hb x).1 hbx with h3 | h3
    · unfold isBuilt at h3
      cases hf0 : findFunction st.functions x with
      | none => rw [hf0] at h3; cases h3
      | some g0 =>
        rw [hf0] at h3
        have hg0p : g0.pending = false := by simpa using h3
        obtain ⟨e1, e2⟩ := hn2 x hxa f g0 hf hf0
        obtain ⟨e3, e4⟩ := hN x g0 hf0 hg0p
        exact ⟨e1.trans e3, e2.trans e4⟩
    · exact absurd h3 hxa

theorem processWorklist_named (env : DriverEnv)
    (augment : Nat → functions_map_t → functions_map_t)
    (hl : LeavesFlags augment) (hn : KeepsNames augment) (wl : List Nat) :
    ∀ (st st1 : DriverState), processWorklist env augment st wl = some st1 →
      wl.Nodup → (∀ x ∈ wl, isBuilt st.functions x = false) →
      BuiltAreNamed env st.functions → BuiltAreNamed env st1.functions := by
  induction wl with
  | nil =>
    intro st st1 h _ _ hN
    simp only [processWorklist, Option.some.injEq] at h
    subst h
    exact hN
  | cons a rest ih =>
    intro st st2 h hnd hnb hN
    obtain ⟨st1, h1, h2⟩ := processWorklist_cons env augment st st2 a rest h
    have hN1 := processFunction_named env augment hl hn st st1 a h1
      (hnb a (List.mem_cons_self _ _)) hN
    obtain ⟨_, ht2⟩ := processFunction_trace env augment hl st st1 a h1
      (hnb a (List.mem_cons_self _ _))
    rw [List.nodup_cons] at hnd
    have hnb1 : ∀ x ∈ rest, isBuilt st1.functions x = false := by
      intro x hx
      cases hbx : isBuilt st1.functions x with
      | false => rfl
      | true =>
        exfalso
        rcases (ht2 x).1 hbx with h3 | h3
        · rw [hnb x (List.mem_cons_of_mem _ hx)] at h3; cases h3
        · exact hnd.1 (h3 ▸ hx)
    exact ih st1 st2 h2 hnd.2 hnb1 hN1

/-- If the worklist holds distinct functions that are not built and every
built function carries its name and module, the same is true of the built
functions when the loop returns. -/
theorem loop_named (env : DriverEnv) (order : List Nat → List Nat)
    (augment : Nat → functions_map_t → functions_map_t)
    (ho : WalksWorklist order) (hl : LeavesFlags augment) (hn : KeepsNames augment)
    (fuel : Nat) :
    ∀ (st : DriverState) (wl : List Nat) (st2 : DriverState),
      wl.Nodup → (∀ x ∈ wl, isBuilt st.functions x = false) →
      BuiltAreNamed env st.functions →
      build_cfg_loop env order augment fuel st wl = Result.done st2 →
      BuiltAreNamed env st2.functions := by
  induction fuel with
  | zero =>
    intro st wl st2 _ _ hN h
    by_cases hnil : wl = []
    · rw [hnil, build_cfg_loop_nil] at h
      injection h with h
      subst h
      exact hN
    · rw [build_cfg_loop_zero _ _ _ _ _ hnil] at h
      cases h
  | succ n ih =>
    intro st wl st2 hwnd hwnb hN h
    by_cases hnil : wl = []
    · rw [hnil, build_cfg_loop_nil] at h
      injection h with h
      subst h
      exact hN
    · rw [build_cfg_loop_succ _ _ _ _ _ _ hnil] at h
      cases hp : processWorklist env augment st (order wl) with
      | none => rw [hp] at h; cases h
      | some st1 =>
        rw [hp] at h
        simp only at h
        cases hs : scanFunctions st1.functions st1.callgraph with
        | none => rw [hs] at h; cases h
        | some r =>
          obtain ⟨cg, wl1⟩ := r
          rw [hs] at h
          simp only at h
          have hond : (order wl).Nodup := (ho wl).nodup_iff.2 hwnd
          have honb : ∀ x ∈ order wl, isBuilt st.functions x = false :=
            fun x hx => hwnb x ((ho wl).mem_iff.1 hx)
          have hN1 := processWorklist_named env augment hl hn _ _ _ hp hond honb hN
          obtain ⟨_, _, hwl1, hwl1nd⟩ := scanFunctions_spec _ _ _ _ hs
          apply ih _ _ _ hwl1nd _ _ h
          · intro y hy
            obtain ⟨p, _, _, hpen⟩ := (hwl1 y).1 hy
            exact (isPendingAt_registered _ _ hpen).2
          · exact hN1

theorem foldl_discover_find (ts : List Nat) :
    ∀ (fs : functions_map_t) (x : Nat) (f : Function),
      findFunction fs x = some f → findFunction (ts.foldl discover fs) x = some f := by
  induction ts with
  | nil => intro fs x f h; exact h
  | cons t rest ih =>
    intro fs x f h
    rw [List.foldl_cons]
    apply ih
    rw [findFunction_discover]
    by_cases ht : (findFunction fs t).isSome = true
    · simp [ht, h]
    · have hxt : x ≠ t := by
        intro e
        rw [e] at h
        rw [h] at ht
        exact ht rfl
      simp [ht, hxt, h]

theorem tableAugment_keepsNames (calls : Nat → List Nat) :
    KeepsNames (tableAugment calls) := by
  intro a fs x f g hf hg
  obtain ⟨haddr, _, _⟩ := tableBlock_facts calls a
  have hupd : ∃ f1, findFunction (updateFunction fs a (tableBlock calls a)) x = some f1
      ∧ f1.name = f.name ∧ f1.module = f.module := by
    rw [findFunction_updateFunction _ _ _ _ haddr, hf]
    by_cases ha : f.address = a
    · refine ⟨tableBlock calls a f, by simp [ha], ?_, ?_⟩
      · unfold tableBlock
        by_cases hc : f.cfg = [] <;> simp [hc]
      · unfold tableBlock
        by_cases hc : f.cfg = [] <;> simp [hc]
    · exact ⟨f, by simp [ha], rfl, rfl⟩
  obtain ⟨f1, hf1, e1, e2⟩ := hupd
  unfold tableAugment at hg
  simp only at hg
  split at hg
  · rw [hf1] at hg
    injection hg with hg
    rw [← hg]
    exact ⟨e1, e2⟩
  · rw [foldl_discover_find _ _ x f1 hf1] at hg
    injection hg with hg
    rw [← hg]
    exact ⟨e1, e2⟩

theorem seedState_nothing_built (entry : Nat) (entry_name module : String) (x : Nat) :
    isBuilt (seedState entry entry_name module).functions x = false := by
  unfold isBuilt seedState
  simp only [findFunction_cons]
  by_cases hx : entry = x
  · simp [hx]
  · simp [hx, findFunction]

/-- C4: when `build_cfg` returns, every call target of every instruction of
every registered function is registered and not pending.  If `augmentCfg`
attaches every function it creates (or leaves pending anew) as a call target
of the function it augments, and call targets once attached stay attached,
then no registered function at all is pending.  If moreover `augmentCfg`
leaves pending flags, names and modules alone and the run starts with no
built function and an empty trace (as from the pending entry function), then
every registered function has had its CFG augmented, bears the name
`funcname` gives its address, and has `prog_name` as its module. -/
theorem no_pending_function_at_return (env : DriverEnv) (order : List Nat → List Nat)
    (augment : Nat → functions_map_t → functions_map_t) (fuel : Nat)
    (st st2 : DriverState)
    (h : build_cfg env order augment fuel st = Result.done st2) :
    (∀ c ∈ st2.functions, ∀ bb ∈ c.cfg, ∀ i ∈ bb.insts, ∀ t ∈ i.call_targets,
        ∃ f, findFunction st2.functions t = some f ∧ f.pending = false)
    ∧ (WalksWorklist order → AttachesDiscovered augment → KeepsCallTargets augment →
        ∀ x f, findFunction st2.functions x = some f → f.pending = false)
    ∧ (WalksWorklist order → AttachesDiscovered augment → KeepsCallTargets augment →
        LeavesFlags augment → KeepsNames augment →
        (∀ x, isBuilt st.functions x = false) → st.augmented = [] →
        ∀ x f, findFunction st2.functions x = some f →
          f.pending = false ∧ x ∈ st2.augmented
            ∧ f.name = funcname env.syms x ∧ f.module = env.prog_name) := by
  refine ⟨?_, ?_, ?_⟩
  · intro c hc bb hbb i hi t ht
    obtain ⟨_, hb⟩ := build_cfg_done_last_scan env order augment fuel st st2 h
    have := hb (c.address, t)
      ((mem_callPairs _ _ _).2 ⟨c, hc, rfl, (mem_callTargets c t).2 ⟨bb, hbb, i, hi, ht⟩⟩)
    unfold isBuilt at this
    cases hf : findFunction st2.functions t with
    | none => rw [hf] at this; cases this
    | some f =>
      rw [hf] at this
      exact ⟨f, rfl, by simpa using this⟩
  · intro ho ha hc
    exact registered_functions_all_built env order augment ho ha hc fuel st st2 h
  · intro ho ha hc hl hn hnb htr x f hf
    have hp : f.pending = false :=
      registered_functions_all_built env order augment ho ha hc fuel st st2 h x f hf
    have hwnd : ((st.functions.map Function.address).foldl worklistInsert []).Nodup :=
      nodup_foldl_worklistInsert _ [] List.nodup_nil
    obtain ⟨_, hiff⟩ := loop_trace env order augment ho hl fuel st _ st2 hwnd
      (fun y _ => hnb y) (by rw [htr]; exact List.nodup_nil)
      (by intro y; rw [htr, hnb y]; simp) h
    have hN : BuiltAreNamed env st2.functions :=
      loop_named env order augment ho hl hn fuel st _ st2 hwnd (fun y _ => hnb y)
        (by
          intro y g hg hgp
          exfalso
          have := hnb y
          unfold isBuilt at this
          rw [hg] at this
          simp [hgp] at this) h
    refine ⟨hp, ?_, hN x f hf hp⟩
    rw [hiff x]
    unfold isBuilt
    rw [hf]
    simp [hp]

/-- Witness of C4 on the main/helper program with a symbol table: the run
returns, helper (the call target of main) is built, no registered function
is pending, and helper has been augmented, named and given its module. -/
theorem no_pending_function_at_return_witness :
    build_cfg namedEnv id (tableAugment mainHelperCalls) 5
        (seedState 4096 "_start (fake)" "a.out") = Result.done mainHelperNamedFinal
    ∧ isPendingAt mainHelperNamedFinal.functions 8192 = false
    ∧ (∀ x f, findFunction mainHelperNamedFinal.functions x = some f → f.pending = false)
    ∧ (∀ x f, findFunction mainHelperNamedFinal.functions x = some f →
        f.pending = false ∧ x ∈ mainHelperNamedFinal.augmented
          ∧ f.name = funcname namedEnv.syms x ∧ f.module = namedEnv.prog_name)
    ∧ funcname namedEnv.syms 8192 = "helper" :=
  ⟨by decide, by decide,
   (no_pending_function_at_return namedEnv id (tableAugment mainHelperCalls) 5
     (seedState 4096 "_start (fake)" "a.out") mainHelperNamedFinal (by decide)).2.1
     walksWorklist_id (tableAugment_attaches mainHelperCalls)
     (tableAugment_keepsCallTargets mainHelperCalls),
   (no_pending_function_at_return namedEnv id (tableAugment mainHelperCalls) 5
     (seedState 4096 "_start (fake)" "a.out") mainHelperNamedFinal (by decide)).2.2
     walksWorklist_id (tableAugment_attaches mainHelperCalls)
     (tableAugment_keepsCallTargets mainHelperCalls)
     (tableAugment_leavesFlags mainHelperCalls) (tableAugment_keepsNames mainHelperCalls)
     (seedState_nothing_built 4096 "_start (fake)" "a.out") rfl,
   by decide⟩

/-! ## Theorems: command line and emission -/

theorem missingProgram_iff (argv : List String) :
    missingProgram argv = true
      ↔ (argv.length < 2 ∨ ∃ s, argv.getLast? = some s ∧ s.data.head? = some '-') := by
  unfold missingProgram
  rw [Bool.or_eq_true, decide_eq_true_iff, beq_iff_eq]
  constructor
  · rintro (h | h)
    · exact Or.inl h
    · right
      cases hl : argv.getLast? with
      | none => rw [hl] at h; cases h
      | some s => rw [hl] at h; exact ⟨s, rfl, h⟩
  · rintro (h | ⟨s, hs, hc⟩)
    · exact Or.inl h
    · right
      rw [hs]
      exact hc

theorem loadStep_events (file : List Nat) (code_scn : Option Nat) (st : LoadState)
    (idx : Nat) (s : Section) :
    ∃ tail, (loadStep file code_scn st idx s).events = st.events ++ tail := by
  unfold loadStep
  cases sectionData file s.hdr with
  | none => exact ⟨[], by simp [LoadResult.events]⟩
  | some data =>
    simp only
    split
    · split
      · exact ⟨_, rfl⟩
      · exact ⟨_, rfl⟩
    · exact ⟨_, rfl⟩

theorem loadFrom_events (file : List Nat) (code_scn : Option Nat) (secs : List Section) :
    ∀ (idx : Nat) (st : LoadState),
      ∃ tail, (loadFrom file code_scn idx st secs).events = st.events ++ tail := by
  induction secs with
  | nil => intro idx st; exact ⟨[], by simp [loadFrom, LoadResult.events]⟩
  | cons s rest ih =>
    intro idx st
    rw [loadFrom]
    obtain ⟨t1, h1⟩ := loadStep_events file code_scn st idx s
    cases hstep : loadStep file code_scn st idx s with
    | aborted ev =>
      rw [hstep] at h1
      exact ⟨t1, h1⟩
    | ok st1 =>
      rw [hstep] at h1
      simp only
      obtain ⟨t2, h2⟩ := ih (idx + 1) st1
      refine ⟨t1 ++ t2, ?_⟩
      rw [h2]
      have : st1.events = st.events ++ t1 := h1
      rw [this, List.append_assoc]

/-- Shape of a run that gets past the command line and `open`: after opening
the file it runs the first section loop, aborts there unless `match_count`
is 1, and otherwise goes on with `addModule`. -/
theorem mainBuild_after_open (argv : List String)
    (fsys : String → Option ElfImage) (order : List Nat → List Nat)
    (augment : Nat → functions_map_t → functions_map_t) (fuel : Nat) (elf : ElfImage)
    (hargs : missingProgram argv = false)
    (hopen : fsys (argv.getLast?.getD "") = some elf) :
    ((scanSections elf.e_entry elf.sections).match_count ≠ 1 →
      mainBuild argv fsys order augment fuel
        = Stage.ended
            { events := Event.openFile (argv.getLast?.getD "")
                :: (scanSections elf.e_entry elf.sections).events,
              status := Status.abort })
    ∧ ((scanSections elf.e_entry elf.sections).match_count = 1 →
      ∃ tail, (mainBuild argv fsys order augment fuel).events
        = Event.openFile (argv.getLast?.getD "")
            :: (scanSections elf.e_entry elf.sections).events
            ++ [Event.addModule (scanSections elf.e_entry elf.sections).min_addr
                  (((scanSections elf.e_entry elf.sections).max_addr + 2 ^ 32
                    - (scanSections elf.e_entry elf.sections).min_addr) % 2 ^ 32)
                  (argv.getLast?.getD "")]
            ++ tail) := by
  constructor
  · intro hm
    unfold mainBuild
    simp only [hargs, Bool.false_eq_true, if_false, hopen]
    simp [hm]
  · intro hm
    unfold mainBuild
    simp only [hargs, Bool.false_eq_true, if_false, hopen, hm, ne_eq, not_true_eq_false]
    generalize hev2 : (Event.openFile (argv.getLast?.getD "")
            :: (scanSections elf.e_entry elf.sections).events
            ++ [Event.addModule (scanSections elf.e_entry elf.sections).min_addr
                  (((scanSections elf.e_entry elf.sections).max_addr + 2 ^ 32
                    - (scanSections elf.e_entry elf.sections).min_addr) % 2 ^ 32)
                  (argv.getLast?.getD "")]) = ev2
    obtain ⟨t, ht⟩ := loadFrom_events elf.file (scanSections elf.e_entry elf.sections).code_scn
      elf.sections 0 { code := none, syms := SymMaps.empty, events := ev2 }
    cases hld : loadFrom elf.file (scanSections elf.e_entry elf.sections).code_scn 0
        { code := none, syms := SymMaps.empty, events := ev2 } elf.sections with
    | aborted ev =>
      rw [hld] at ht
      exact ⟨t, ht⟩
    | ok ld =>
      rw [hld] at ht
      have ht2 : ld.events = ev2 ++ t := ht
      simp only
      cases ld.code with
      | none => exact ⟨t, ht2⟩
      | some c =>
        simp only
        split
        · exact ⟨_, by simp only [Stage.events]; rw [ht2, List.append_assoc]⟩
        · exact ⟨_, by simp only [Stage.events]; rw [ht2, List.append_assoc]⟩
        · exact ⟨_, by simp only [Stage.events]; rw [ht2, List.append_assoc]⟩

/-- A run that ended before emission is the whole run of `main`. -/
theorem main_of_ended (argv : List String) (opts : Options) (canOpen : OutFile → Bool)
    (fsys : String → Option ElfImage) (order : List Nat → List Nat)
    (augment : Nat → functions_map_t → functions_map_t) (fuel : Nat) (out : Outcome)
    (h : mainBuild argv fsys order augment fuel = Stage.ended out) :
    main argv opts canOpen fsys order augment fuel = out := by
  unfold main
  rw [h]

/-- Emission only appends events to those of the earlier stages. -/
theorem main_events_extend (argv : List String) (opts : Options) (canOpen : OutFile → Bool)
    (fsys : String → Option ElfImage) (order : List Nat → List Nat)
    (augment : Nat → functions_map_t → functions_map_t) (fuel : Nat) :
    ∃ tail, (main argv opts canOpen fsys order augment fuel).events
      = (mainBuild argv fsys order augment fuel).events ++ tail := by
  unfold main
  cases mainBuild argv fsys order augment fuel with
  | ended out => exact ⟨[], by simp [Stage.events]⟩
  | built ev st =>
    simp only [Stage.events]
    split
    · exact ⟨_, by rw [List.append_assoc]⟩
    · exact ⟨_, rfl⟩

/-- Shape of a run of `main` that gets past the command line and `open`. -/
theorem main_after_open (argv : List String) (opts : Options) (canOpen : OutFile → Bool)
    (fsys : String → Option ElfImage) (order : List Nat → List Nat)
    (augment : Nat → functions_map_t → functions_map_t) (fuel : Nat) (elf : ElfImage)
    (hargs : missingProgram argv = false)
    (hopen : fsys (argv.getLast?.getD "") = some elf) :
    ((scanSections elf.e_entry elf.sections).match_count ≠ 1 →
      main argv opts canOpen fsys order augment fuel
        = { events := Event.openFile (argv.getLast?.getD "")
              :: (scanSections elf.e_entry elf.sections).events,
            status := Status.abort })
    ∧ ((scanSections elf.e_entry elf.sections).match_count = 1 →
      ∃ tail, (main argv opts canOpen fsys order augment fuel).events
        = Event.openFile (argv.getLast?.getD "")
            :: (scanSections elf.e_entry elf.sections).events
            ++ [Event.addModule (scanSections elf.e_entry elf.sections).min_addr
                  (((scanSections elf.e_entry elf.sections).max_addr + 2 ^ 32
                    - (scanSections elf.e_entry elf.sections).min_addr) % 2 ^ 32)
                  (argv.getLast?.getD "")]
            ++ tail) := by
  obtain ⟨h1, h2⟩ := mainBuild_after_open argv fsys order augment fuel elf hargs hopen
  constructor
  · intro hm
    exact main_of_ended argv opts canOpen fsys order augment fuel _ (h1 hm)
  · intro hm
    obtain ⟨t, ht⟩ := h2 hm
    obtain ⟨t2, ht2⟩ := main_events_extend argv opts canOpen fsys order augment fuel
    exact ⟨t ++ t2, by rw [ht2, ht, List.append_assoc]⟩

theorem main_head_of_program (argv : List String) (opts : Options)
    (canOpen : OutFile → Bool)
    (fsys : String → Option ElfImage) (order : List Nat → List Nat)
    (augment : Nat → functions_map_t → functions_map_t) (fuel : Nat)
    (hargs : missingProgram argv = false) :
    (main argv opts canOpen fsys order augment fuel).events.head?
      = some (Event.openFile (argv.getLast?.getD "")) := by
  cases hf : fsys (argv.getLast?.getD "") with
  | none =>
    have : mainBuild argv fsys order augment fuel
        = Stage.ended
            { events := [Event.openFile (argv.getLast?.getD ""),
                Event.openFailed (argv.getLast?.getD "")],
              status := Status.exit 1 } := by
      unfold mainBuild
      simp only [hargs, Bool.false_eq_true, if_false, hf]
    rw [main_of_ended argv opts canOpen fsys order augment fuel _ this]
    rfl
  | some elf =>
    obtain ⟨h1, h2⟩ := main_after_open argv opts canOpen fsys order augment fuel elf hargs hf
    by_cases hm : (scanSections elf.e_entry elf.sections).match_count = 1
    · obtain ⟨t, ht⟩ := h2 hm
      rw [ht]
      rfl
    · rw [h1 hm]
      rfl

/-- C9: `main` prints the usage message and exits with code 1, with no file
opened, exactly when `argc < 2` or the last argument begins with a dash; in
every other case the first thing it does is open the last argument. -/
theorem usage_iff_missing_program (argv : List String) (opts : Options)
    (canOpen : OutFile → Bool)
    (fsys : String → Option ElfImage) (order : List Nat → List Nat)
    (augment : Nat → functions_map_t → functions_map_t) (fuel : Nat) :
    (main argv opts canOpen fsys order augment fuel
        = { events := [Event.usage], status := Status.exit 1 }
      ↔ (argv.length < 2 ∨ ∃ s, argv.getLast? = some s ∧ s.data.head? = some '-'))
    ∧ (main argv opts canOpen fsys order augment fuel).events.head?
        = some (if missingProgram argv then Event.usage
                else Event.openFile (argv.getLast?.getD "")) := by
  rw [← missingProgram_iff]
  by_cases hm : missingProgram argv = true
  · have : main argv opts canOpen fsys order augment fuel
        = { events := [Event.usage], status := Status.exit 1 } := by
      apply main_of_ended
      unfold mainBuild
      simp [hm]
    rw [this]
    simp [hm]
  · have hm0 : missingProgram argv = false := by simpa using hm
    have hh := main_head_of_program argv opts canOpen fsys order augment fuel hm0
    refine ⟨?_, by simpa [hm0] using hh⟩
    constructor
    · intro h
      rw [h] at hh
      simp at hh
    · intro h
      exact absurd h hm

/-! ## Theorems: the entry-point scan -/

theorem coversEntry_iff (start : Nat) (s : Section) :
    coversEntry start s.hdr = true ↔ containsEntry start s := by
  unfold coversEntry containsEntry
  simp [and_assoc]

theorem scanFrom_match_count (start : Nat) (secs : List Section) :
    ∀ (idx : Nat) (st : ScanState),
      (scanFrom start idx st secs).match_count
        = st.match_count + secs.countP (fun s => coversEntry start s.hdr) := by
  induction secs with
  | nil => intro idx st; simp [scanFrom]
  | cons s rest ih =>
    intro idx st
    rw [scanFrom, ih, List.countP_cons]
    by_cases h : coversEntry start s.hdr = true
    · simp [scanStep, h]; omega
    · simp [scanStep, h]

theorem scanFrom_events (start : Nat) (secs : List Section) :
    ∀ (idx : Nat) (st : ScanState), ∀ e ∈ (scanFrom start idx st secs).events,
      e ∈ st.events ∨ ∃ a n, e = Event.candidate a n := by
  induction secs with
  | nil => intro idx st e he; exact Or.inl he
  | cons s rest ih =>
    intro idx st e he
    rw [scanFrom] at he
    rcases ih _ _ e he with h | h
    · by_cases hc : coversEntry start s.hdr = true
      · simp only [scanStep, hc, if_true, List.mem_append, List.mem_singleton] at h
        rcases h with h | h
        · exact Or.inl h
        · exact Or.inr ⟨_, _, h⟩
      · simp only [scanStep, hc, if_false] at h
        exact Or.inl h
    · exact Or.inr h

theorem scanSections_match_count (elf : ElfImage) :
    (scanSections elf.e_entry elf.sections).match_count = entryCandidates elf := by
  unfold scanSections entryCandidates
  rw [scanFrom_match_count]
  simp only [Nat.zero_add]
  apply List.countP_congr
  intro s _
  simp only [decide_eq_true_eq]
  exact coversEntry_iff elf.e_entry s

/-- C8: once the program file is open, `main` gets past the first section loop
(its next action, `addModule`, happens) iff exactly one program-bits section
contains the entry point, the end of the section being computed modulo 2^32;
with no such section, or several, `main` aborts, and its events then include
neither the creation of a function nor the writing of a file. -/
theorem entry_section_validation (argv : List String) (opts : Options)
    (canOpen : OutFile → Bool) (fsys : String → Option ElfImage) (order : List Nat → List Nat)
    (augment : Nat → functions_map_t → functions_map_t) (fuel : Nat) (elf : ElfImage)
    (hargs : missingProgram argv = false)
    (hopen : fsys (argv.getLast?.getD "") = some elf) :
    ((∃ a sz nm, Event.addModule a sz nm ∈ (main argv opts canOpen fsys order augment fuel).events)
      ↔ entryCandidates elf = 1)
    ∧ (entryCandidates elf ≠ 1 →
        (main argv opts canOpen fsys order augment fuel).status = Status.abort
        ∧ ∀ e ∈ (main argv opts canOpen fsys order augment fuel).events,
            (∀ n a, e ≠ Event.newFunction n a) ∧ (∀ f, e ≠ Event.write f)) := by
  obtain ⟨h1, h2⟩ := main_after_open argv opts canOpen fsys order augment fuel elf hargs hopen
  rw [scanSections_match_count] at h1 h2
  have hscan : ∀ e ∈ Event.openFile (argv.getLast?.getD "")
      :: (scanSections elf.e_entry elf.sections).events,
      (∃ p, e = Event.openFile p) ∨ ∃ a n, e = Event.candidate a n := by
    intro e he
    rcases List.mem_cons.1 he with he | he
    · exact Or.inl ⟨_, he⟩
    · rcases scanFrom_events _ _ _ _ e he with h | h
      · simp at h
      · exact Or.inr h
  constructor
  · constructor
    · rintro ⟨a, sz, nm, hmem⟩
      by_contra hne
      rw [h1 hne] at hmem
      rcases hscan _ hmem with ⟨p, hp⟩ | ⟨b, n, hp⟩ <;> cases hp
    · intro hm
      obtain ⟨t, ht⟩ := h2 hm
      refine ⟨(scanSections elf.e_entry elf.sections).min_addr,
        ((scanSections elf.e_entry elf.sections).max_addr + 2 ^ 32
          - (scanSections elf.e_entry elf.sections).min_addr) % 2 ^ 32,
        argv.getLast?.getD "", ?_⟩
      rw [ht]
      simp
  · intro hne
    rw [h1 hne]
    refine ⟨rfl, ?_⟩
    intro e he
    rcases hscan e he with ⟨p, hp⟩ | ⟨b, n, hp⟩
    · subst hp
      exact ⟨fun _ _ h => (by cases h), fun _ h => (by cases h)⟩
    · subst hp
      exact ⟨fun _ _ h => (by cases h), fun _ h => (by cases h)⟩

/-- Witness of C8: with an entry point outside every section `main` aborts
right after the scan; with the entry point in `.text` it goes on. -/
theorem entry_section_validation_witness :
    missingProgram ["make-cfg", "a.out"] = false
    ∧ entryCandidates strayEntryElf ≠ 1
    ∧ (main ["make-cfg", "a.out"] { dot := some "out", vcg := none, json := none, cfg_out := none }
        (fun _ => true) (fun _ => some strayEntryElf) id (tableAugment mainHelperCalls) 5).status
        = Status.abort :=
  ⟨by decide, by decide,
   ((entry_section_validation ["make-cfg", "a.out"]
      { dot := some "out", vcg := none, json := none, cfg_out := none }
      (fun _ => true) (fun _ => some strayEntryElf) id (tableAugment mainHelperCalls) 5 strayEntryElf
      (by decide) rfl).2 (by decide)).1⟩

/-! ## Theorems: emission plan -/

/-- Membership in the emission plan, file kind by file kind. -/
theorem emit_mem (opts : Options) (fs : List Nat) :
    (∀ d, OutFile.cfgJson d ∈ emit opts fs ↔ opts.json = some d)
    ∧ (∀ d a, OutFile.functionDot d a ∈ emit opts fs
        ↔ opts.dot = some d ∧ opts.json = none ∧ a ∈ fs)
    ∧ (∀ d a, OutFile.functionVcg d a ∈ emit opts fs
        ↔ opts.vcg = some d ∧ opts.json = none ∧ a ∈ fs)
    ∧ (∀ d, OutFile.callgraphDot d ∈ emit opts fs ↔ opts.dot = some d)
    ∧ (∀ p, OutFile.serialized p ∈ emit opts fs ↔ opts.cfg_out = some p)
    ∧ emit { dot := none, vcg := none, json := none, cfg_out := none } fs = [] := by
  obtain ⟨dot, vcg, json, cfg_out⟩ := opts
  refine ⟨?_, ?_, ?_, ?_, ?_, rfl⟩
  · intro d
    cases dot <;> cases vcg <;> cases json <;> cases cfg_out <;>
      simp [emit, emitGraphs, emitSerialized, eq_comm]
  · intro d a
    cases dot <;> cases vcg <;> cases json <;> cases cfg_out <;>
      simp [emit, emitGraphs, emitSerialized, eq_comm] <;> exact and_comm
  · intro d a
    cases dot <;> cases vcg <;> cases json <;> cases cfg_out <;>
      simp [emit, emitGraphs, emitSerialized, eq_comm] <;> exact and_comm
  · intro d
    cases dot <;> cases vcg <;> cases json <;> cases cfg_out <;>
      simp [emit, emitGraphs, emitSerialized, eq_comm]
  · intro p
    cases dot <;> cases vcg <;> cases json <;> cases cfg_out <;>
      simp [emit, emitGraphs, emitSerialized, eq_comm]

theorem writeFiles_fst (canOpen : OutFile → Bool) (l : List OutFile) :
    (writeFiles canOpen l).1 = l.takeWhile canOpen := by
  induction l with
  | nil => rfl
  | cons f rest ih =>
    rw [writeFiles, List.takeWhile_cons]
    by_cases h : canOpen f = true
    · simp [h, ih]
    · simp [h]

theorem writeFiles_snd (canOpen : OutFile → Bool) (l : List OutFile) :
    (writeFiles canOpen l).2 = true ↔ ∀ f ∈ l, canOpen f = true := by
  induction l with
  | nil => simp [writeFiles]
  | cons f rest ih =>
    rw [writeFiles]
    by_cases h : canOpen f = true
    · simp [h, ih]
    · simp [h]

theorem takeWhile_eq_self_of_all (canOpen : OutFile → Bool) (l : List OutFile)
    (h : ∀ f ∈ l, canOpen f = true) : l.takeWhile canOpen = l := by
  induction l with
  | nil => rfl
  | cons f rest ih =>
    rw [List.takeWhile_cons]
    simp only [h f (List.mem_cons_self _ _), if_true]
    rw [ih (fun g hg => h g (List.mem_cons_of_mem _ hg))]

theorem loadStep_events_kind (file : List Nat) (code_scn : Option Nat) (st : LoadState)
    (idx : Nat) (s : Section) :
    ∀ e ∈ (loadStep file code_scn st idx s).events,
      e ∈ st.events ∨ ∃ a d sz fl n, e = Event.addSection a d sz fl n := by
  intro e he
  unfold loadStep at he
  cases hd : sectionData file s.hdr with
  | none =>
    rw [hd] at he
    exact Or.inl he
  | some data =>
    rw [hd] at he
    simp only at he
    have key : e ∈ st.events ++ [Event.addSection s.hdr.sh_addr data s.hdr.sh_size
        (sectionFlags s.hdr) s.name] := by
      split at he
      · split at he
        · exact he
        · exact he
      · exact he
    rcases List.mem_append.1 key with h | h
    · exact Or.inl h
    · exact Or.inr ⟨_, _, _, _, _, List.mem_singleton.1 h⟩

theorem loadFrom_events_kind (file : List Nat) (code_scn : Option Nat)
    (secs : List Section) :
    ∀ (idx : Nat) (st : LoadState), ∀ e ∈ (loadFrom file code_scn idx st secs).events,
      e ∈ st.events ∨ ∃ a d sz fl n, e = Event.addSection a d sz fl n := by
  induction secs with
  | nil => intro idx st e he; exact Or.inl he
  | cons s rest ih =>
    intro idx st e he
    rw [loadFrom] at he
    have hstep := loadStep_events_kind file code_scn st idx s
    cases hs : loadStep file code_scn st idx s with
    | aborted ev =>
      rw [hs] at he hstep
      exact hstep e he
    | ok st1 =>
      rw [hs] at he hstep
      simp only at he
      rcases ih _ _ e he with h | h
      · exact hstep e h
      · exact Or.inr h

/-- Before emission `main` writes no file. -/
theorem mainBuild_no_write (argv : List String)
    (fsys : String → Option ElfImage) (order : List Nat → List Nat)
    (augment : Nat → functions_map_t → functions_map_t) (fuel : Nat) (f : OutFile) :
    Event.write f ∉ (mainBuild argv fsys order augment fuel).events := by
  intro hmem
  unfold mainBuild at hmem
  by_cases hm : missingProgram argv = true
  · simp [hm, Stage.events] at hmem
  · simp only [hm, Bool.false_eq_true, if_false] at hmem
    cases hf : fsys (argv.getLast?.getD "") with
    | none =>
      rw [hf] at hmem
      simp [Stage.events] at hmem
    | some elf =>
      rw [hf] at hmem
      simp only at hmem
      have hscan : ∀ e ∈ (scanSections elf.e_entry elf.sections).events,
          e ≠ Event.write f := by
        intro e he
        rcases scanFrom_events _ _ _ _ e he with h | ⟨a, n, h⟩
        · simp at h
        · rw [h]; exact fun h2 => by cases h2
      by_cases hmc : (scanSections elf.e_entry elf.sections).match_count = 1
      · simp only [hmc, ne_eq, not_true_eq_false, if_false] at hmem
        generalize hev2 : (Event.openFile (argv.getLast?.getD "")
            :: (scanSections elf.e_entry elf.sections).events
            ++ [Event.addModule (scanSections elf.e_entry elf.sections).min_addr
                  (((scanSections elf.e_entry elf.sections).max_addr + 2 ^ 32
                    - (scanSections elf.e_entry elf.sections).min_addr) % 2 ^ 32)
                  (argv.getLast?.getD "")]) = ev2 at hmem
        have hev2w : ∀ e ∈ ev2, e ≠ Event.write f := by
          intro e he
          rw [← hev2] at he
          simp only [List.cons_append, List.mem_cons, List.mem_append, List.not_mem_nil, or_false] at he
          rcases he with h | h | h
          · rw [h]; exact fun h2 => by cases h2
          · exact hscan e h
          · rw [h]; exact fun h2 => by cases h2
        have hkind := loadFrom_events_kind elf.file
          (scanSections elf.e_entry elf.sections).code_scn elf.sections 0
          { code := none, syms := SymMaps.empty, events := ev2 }
        have hldw : ∀ e ∈ (loadFrom elf.file (scanSections elf.e_entry elf.sections).code_scn 0
            { code := none, syms := SymMaps.empty, events := ev2 } elf.sections).events,
            e ≠ Event.write f := by
          intro e he
          rcases hkind e he with h | ⟨a, d, sz, fl, n, h⟩
          · exact hev2w e h
          · rw [h]; exact fun h2 => by cases h2
        cases hld : loadFrom elf.file (scanSections elf.e_entry elf.sections).code_scn 0
            { code := none, syms := SymMaps.empty, events := ev2 } elf.sections with
        | aborted ev =>
          rw [hld] at hmem hldw
          exact hldw _ hmem rfl
        | ok ld =>
          rw [hld] at hmem hldw
          simp only at hmem
          have hldw2 : ∀ e ∈ ld.events, e ≠ Event.write f := hldw
          cases hc : ld.code with
          | none =>
            rw [hc] at hmem
            exact hldw2 _ hmem rfl
          | some c =>
            rw [hc] at hmem
            simp only at hmem
            have hev3 : ∀ e ∈ ld.events ++ [Event.newFunction
                ((ld.syms.addr2name elf.e_entry).getD "_start (fake)") elf.e_entry],
                e ≠ Event.write f := by
              intro e he
              rcases List.mem_append.1 he with h | h
              · exact hldw2 e h
              · rw [List.mem_singleton.1 h]; exact fun h2 => by cases h2
            split at hmem
            · exact hev3 _ hmem rfl
            · exact hev3 _ hmem rfl
            · exact hev3 _ hmem rfl
      · simp only [hmc, ne_eq, not_false_eq_true, if_true, Stage.events] at hmem
        rcases List.mem_cons.1 hmem with h | h
        · cases h
        · exact hscan _ h rfl

/-- The files a run that reached emission writes, and how it ends. -/
theorem main_writes (argv : List String) (opts : Options) (canOpen : OutFile → Bool)
    (fsys : String → Option ElfImage) (order : List Nat → List Nat)
    (augment : Nat → functions_map_t → functions_map_t) (fuel : Nat)
    (ev : List Event) (st : DriverState)
    (h : mainBuild argv fsys order augment fuel = Stage.built ev st) :
    (∀ f, Event.write f ∈ (main argv opts canOpen fsys order augment fuel).events
      ↔ (f ∈ (emitGraphs opts (st.functions.map Function.address)).takeWhile canOpen
          ∨ ((∀ g ∈ emitGraphs opts (st.functions.map Function.address), canOpen g = true)
              ∧ f ∈ emitSerialized opts)))
    ∧ (main argv opts canOpen fsys order augment fuel).status
        = if (∀ g ∈ emitGraphs opts (st.functions.map Function.address), canOpen g = true)
          then Status.exit 0 else Status.abort := by
  have hev : ∀ f, Event.write f ∉ ev := by
    intro f
    have := mainBuild_no_write argv fsys order augment fuel f
    rw [h] at this
    exact this
  by_cases hall : ∀ g ∈ emitGraphs opts (st.functions.map Function.address), canOpen g = true
  · have h2 : (writeFiles canOpen (emitGraphs opts (st.functions.map Function.address))).2
        = true := (writeFiles_snd _ _).2 hall
    have hmain : main argv opts canOpen fsys order augment fuel
        = { events := ev
              ++ ((emitGraphs opts (st.functions.map Function.address)).takeWhile canOpen).map
                  Event.write
              ++ (emitSerialized opts).map Event.write,
            status := Status.exit 0 } := by
      unfold main
      rw [h]
      simp only [h2, if_true, writeFiles_fst]
    rw [hmain]
    refine ⟨?_, by rw [if_pos hall]⟩
    intro f
    simp only [List.mem_append, List.mem_map, Event.write.injEq, exists_eq_right]
    constructor
    · rintro ((h3 | h3) | h3)
      · exact absurd h3 (hev f)
      · exact Or.inl h3
      · exact Or.inr ⟨hall, h3⟩
    · rintro (h3 | ⟨_, h3⟩)
      · exact Or.inl (Or.inr h3)
      · exact Or.inr h3
  · have h2 : (writeFiles canOpen (emitGraphs opts (st.functions.map Function.address))).2
        = false := by
      cases hb : (writeFiles canOpen (emitGraphs opts (st.functions.map Function.address))).2
      · rfl
      · exact absurd ((writeFiles_snd _ _).1 hb) hall
    have hmain : main argv opts canOpen fsys order augment fuel
        = { events := ev
              ++ ((emitGraphs opts (st.functions.map Function.address)).takeWhile canOpen).map
                  Event.write,
            status := Status.abort } := by
      unfold main
      rw [h]
      simp only [h2, Bool.false_eq_true, if_false, writeFiles_fst]
    rw [hmain]
    refine ⟨?_, by rw [if_neg hall]⟩
    intro f
    simp only [List.mem_append, List.mem_map, Event.write.injEq, exists_eq_right]
    constructor
    · rintro (h3 | h3)
      · exact absurd h3 (hev f)
      · exact Or.inl h3
    · rintro (h3 | ⟨h4, _⟩)
      · exact Or.inr h3
      · exact absurd h4 hall

/-- C6, as the code has it: in a run of `main` that reaches emission with the
final registry `st.functions`, nothing outside the plan of the options is
ever written.  When every `fopen` of the plan succeeds `main` ends with
code 0 and `cfg.json` is written iff `--json` is set, a per-function `.dot`
(`.vcg`) file is written for a registered function iff `--dot` (`--vcg`) is
set and `--json` is not, `callgraph.dot` is written iff `--dot` is set (with
or without `--json`), and the serialization is written iff `--cfg-out` is
set.  When an `fopen` fails, `main` aborts on `assert(f)`: exactly the files
of the plan before the first failing one are written, and the serialization
is not.  With no option set no file is written. -/
theorem emission_plan (argv : List String) (opts : Options) (canOpen : OutFile → Bool)
    (fsys : String → Option ElfImage) (order : List Nat → List Nat)
    (augment : Nat → functions_map_t → functions_map_t) (fuel : Nat)
    (ev : List Event) (st : DriverState)
    (h : mainBuild argv fsys order augment fuel = Stage.built ev st) :
    (∀ f, Event.write f ∈ (main argv opts canOpen fsys order augment fuel).events →
        f ∈ emit opts (st.functions.map Function.address))
    ∧ ((∀ g ∈ emitGraphs opts (st.functions.map Function.address), canOpen g = true) →
        (main argv opts canOpen fsys order augment fuel).status = Status.exit 0
        ∧ (∀ d, Event.write (OutFile.cfgJson d)
              ∈ (main argv opts canOpen fsys order augment fuel).events
            ↔ opts.json = some d)
        ∧ (∀ d a, Event.write (OutFile.functionDot d a)
              ∈ (main argv opts canOpen fsys order augment fuel).events
            ↔ opts.dot = some d ∧ opts.json = none
                ∧ a ∈ st.functions.map Function.address)
        ∧ (∀ d a, Event.write (OutFile.functionVcg d a)
              ∈ (main argv opts canOpen fsys order augment fuel).events
            ↔ opts.vcg = some d ∧ opts.json = none
                ∧ a ∈ st.functions.map Function.address)
        ∧ (∀ d, Event.write (OutFile.callgraphDot d)
              ∈ (main argv opts canOpen fsys order augment fuel).events
            ↔ opts.dot = some d)
        ∧ (∀ p, Event.write (OutFile.serialized p)
              ∈ (main argv opts canOpen fsys order augment fuel).events
            ↔ opts.cfg_out = some p))
    ∧ ((∃ g ∈ emitGraphs opts (st.functions.map Function.address), canOpen g = false) →
        (main argv opts canOpen fsys order augment fuel).status = Status.abort
        ∧ (∀ f, Event.write f ∈ (main argv opts canOpen fsys order augment fuel).events
            ↔ f ∈ (emitGraphs opts (st.functions.map Function.address)).takeWhile canOpen))
    ∧ (opts = { dot := none, vcg := none, json := none, cfg_out := none } →
        ∀ f, Event.write f ∉ (main argv opts canOpen fsys order augment fuel).events) := by
  obtain ⟨hw, hs⟩ := main_writes argv opts canOpen fsys order augment fuel ev st h
  have hplan : ∀ f, Event.write f ∈ (main argv opts canOpen fsys order augment fuel).events →
      f ∈ emit opts (st.functions.map Function.address) := by
    intro f hf
    unfold emit
    rcases (hw f).1 hf with h1 | ⟨_, h1⟩
    · exact List.mem_append_left _ (List.takeWhile_subset canOpen h1)
    · exact List.mem_append_right _ h1
  refine ⟨hplan, ?_, ?_, ?_⟩
  · intro hall
    have hall_iff : ∀ f, Event.write f ∈ (main argv opts canOpen fsys order augment fuel).events
        ↔ f ∈ emit opts (st.functions.map Function.address) := by
      intro f
      rw [hw f, takeWhile_eq_self_of_all _ _ hall]
      unfold emit
      rw [List.mem_append]
      constructor
      · rintro (h1 | ⟨_, h1⟩)
        · exact Or.inl h1
        · exact Or.inr h1
      · rintro (h1 | h1)
        · exact Or.inl h1
        · exact Or.inr ⟨hall, h1⟩
    obtain ⟨e1, e2, e3, e4, e5, _⟩ := emit_mem opts (st.functions.map Function.address)
    refine ⟨by rw [hs, if_pos hall], ?_, ?_, ?_, ?_, ?_⟩
    · intro d; rw [hall_iff, e1]
    · intro d a; rw [hall_iff, e2]
    · intro d a; rw [hall_iff, e3]
    · intro d; rw [hall_iff, e4]
    · intro p; rw [hall_iff, e5]
  · rintro ⟨g, hg, hgc⟩
    have hnall : ¬ ∀ g ∈ emitGraphs opts (st.functions.map Function.address),
        canOpen g = true := by
      intro hall
      rw [hall g hg] at hgc
      cases hgc
    refine ⟨by rw [hs, if_neg hnall], ?_⟩
    intro f
    rw [hw f]
    constructor
    · rintro (h1 | ⟨h1, _⟩)
      · exact h1
      · exact absurd h1 hnall
    · exact Or.inl
  · intro hopts f hf
    have := hplan f hf
    rw [hopts] at this
    have e : emit { dot := none, vcg := none, json := none, cfg_out := none }
        (st.functions.map Function.address) = [] := rfl
    rw [e] at this
    cases this

/-- The run on `textElf` with the self-recursive call table reaches emission. -/
theorem textElf_built :
    mainBuild ["make-cfg", "--dot=out", "a.out"] (fun _ => some textElf) id
        (tableAugment selfCalls) 5 = Stage.built textLoadEvents selfFinal := by
  decide

/-- Witness of the amended C6: on `textElf` with `--dot=out` and every
`fopen` succeeding, the run ends with code 0 and `out/00001000.dot` is
written. -/
theorem emission_plan_witness :
    mainBuild ["make-cfg", "--dot=out", "a.out"] (fun _ => some textElf) id
        (tableAugment selfCalls) 5 = Stage.built textLoadEvents selfFinal
    ∧ (main ["make-cfg", "--dot=out", "a.out"] dotOptions (fun _ => true)
        (fun _ => some textElf) id (tableAugment selfCalls) 5).status = Status.exit 0
    ∧ Event.write (OutFile.functionDot "out" 4096)
        ∈ (main ["make-cfg", "--dot=out", "a.out"] dotOptions (fun _ => true)
            (fun _ => some textElf) id (tableAugment selfCalls) 5).events :=
  ⟨textElf_built,
   ((emission_plan ["make-cfg", "--dot=out", "a.out"] dotOptions (fun _ => true)
      (fun _ => some textElf) id (tableAugment selfCalls) 5
      textLoadEvents selfFinal textElf_built).2.1 (fun _ _ => rfl)).1,
   (((emission_plan ["make-cfg", "--dot=out", "a.out"] dotOptions (fun _ => true)
      (fun _ => some textElf) id (tableAugment selfCalls) 5
      textLoadEvents selfFinal textElf_built).2.1 (fun _ _ => rfl)).2.2.1 "out" 4096).2
     ⟨rfl, rfl, by decide⟩⟩

/-- Counterexample to C6 as stated: `--dot=out` is set and the run reaches
emission, but `fopen` fails in the directory; `main` aborts on `assert(f)`
and neither the per-function `.dot` file nor `callgraph.dot` is written. -/
theorem dot_set_but_nothing_written :
    dotOptions.dot = some "out" ∧ dotOptions.json = none
    ∧ (main ["make-cfg", "--dot=out", "a.out"] dotOptions (fun _ => false)
        (fun _ => some textElf) id (tableAugment selfCalls) 5)
      = { events := textLoadEvents, status := Status.abort }
    ∧ Event.write (OutFile.functionDot "out" 4096) ∉ textLoadEvents
    ∧ Event.write (OutFile.callgraphDot "out") ∉ textLoadEvents := by
  refine ⟨rfl, rfl, by decide, by decide, by decide⟩

/-! ## Theorems: section bytes -/

end MakeCfg
